import Mathlib

/-!
Verification development for the xuanshu document-production workflow core.

The Python sources under `backend/app` are shallowly embedded: Python strings
become `List Char`, dicts with a fixed key set become structures, async
functions become pure functions (parameterised by the outcome of their
external model-gateway calls), and exceptions become explicit control paths.
Each embedded definition cites the source function it mirrors.
-/

namespace Xuanshu

/-- Text is modelled as a list of characters, mirroring Python strings
(one `Char` per Python character, including CJK characters). -/
abbrev Str := List Char

/-- Python `str.find`: index of the leftmost occurrence of `needle` in
`hay`, `none` when absent (Python returns `-1`). -/
def strFind (needle hay : Str) : Option Nat :=
  if needle <+: hay then some 0
  else
    match hay with
    | [] => none
    | _ :: t => (strFind needle t).map (· + 1)

theorem strFind_some_pfx {needle hay : Str} {p : Nat}
    (h : strFind needle hay = some p) : needle <+: hay.drop p := by
  induction hay generalizing p with
  | nil =>
    unfold strFind at h
    split at h
    · simp only [Option.some.injEq] at h
      subst h
      simpa using ‹needle <+: []›
    · simp at h
  | cons c t ih =>
    unfold strFind at h
    split at h
    · simp only [Option.some.injEq] at h
      subst h
      simpa using ‹needle <+: c :: t›
    · simp only [Option.map_eq_some'] at h
      obtain ⟨q, hq, rfl⟩ := h
      simpa using ih hq

theorem strFind_some_min {needle hay : Str} {p : Nat}
    (h : strFind needle hay = some p) :
    ∀ i < p, ¬ needle <+: hay.drop i := by
  induction hay generalizing p with
  | nil =>
    unfold strFind at h
    split at h
    · simp only [Option.some.injEq] at h
      subst h
      intro i hi
      omega
    · simp at h
  | cons c t ih =>
    unfold strFind at h
    split at h
    · simp only [Option.some.injEq] at h
      subst h
      intro i hi
      omega
    · simp only [Option.map_eq_some'] at h
      obtain ⟨q, hq, rfl⟩ := h
      intro i hi
      cases i with
      | zero => simpa using ‹¬ needle <+: c :: t›
      | succ j =>
        have := ih hq j (by omega)
        simpa using this

theorem strFind_none {needle hay : Str}
    (h : strFind needle hay = none) : ∀ i, ¬ needle <+: hay.drop i := by
  have hne : needle ≠ [] := by
    intro he
    subst he
    unfold strFind at h
    simp at h
  induction hay with
  | nil =>
    intro i
    simp only [List.drop_nil]
    intro hp
    exact hne (List.prefix_nil.mp hp)
  | cons c t ih =>
    unfold strFind at h
    split at h
    · simp at h
    · simp only [Option.map_eq_none'] at h
      intro i
      cases i with
      | zero => simpa using ‹¬ needle <+: c :: t›
      | succ j => simpa using ih h j

theorem strFind_some_bound {needle hay : Str} {p : Nat}
    (h : strFind needle hay = some p) (hne : needle ≠ []) :
    p + needle.length ≤ hay.length := by
  have hp := strFind_some_pfx h
  have hlen := hp.length_le
  simp only [List.length_drop] at hlen
  have h1 : 1 ≤ needle.length := by
    cases needle with
    | nil => exact absurd rfl hne
    | cons a b => simp
  omega

/-- Whether `needle` occurs as a contiguous substring of `hay`. -/
def OccursIn (needle hay : Str) : Prop := ∃ i, needle <+: hay.drop i

theorem strFind_isSome_iff {needle hay : Str} :
    (strFind needle hay).isSome = true ↔ OccursIn needle hay := by
  constructor
  · intro h
    match hf : strFind needle hay with
    | none => rw [hf] at h; simp at h
    | some p => exact ⟨p, strFind_some_pfx hf⟩
  · rintro ⟨i, hi⟩
    match hf : strFind needle hay with
    | none => exact absurd hi (strFind_none hf i)
    | some p => simp

instance (needle hay : Str) : Decidable (OccursIn needle hay) :=
  decidable_of_iff _ strFind_isSome_iff

theorem not_occursIn_iff_strFind_none {needle hay : Str} :
    ¬ OccursIn needle hay ↔ strFind needle hay = none := by
  rw [← strFind_isSome_iff]
  cases strFind needle hay <;> simp

theorem occursIn_of_sub {needle l m : Str} (h : l <:+: m)
    (ho : OccursIn needle l) : OccursIn needle m := by
  obtain ⟨u, v, rfl⟩ := h
  obtain ⟨i, hi⟩ := ho
  refine ⟨u.length + i, ?_⟩
  rw [List.append_assoc, List.drop_append_eq_append_drop]
  have hu : u.drop (u.length + i) = [] := by
    apply List.drop_eq_nil_of_le
    omega
  rw [hu, List.nil_append]
  have hn : u.length + i - u.length = i := by omega
  rw [hn, List.drop_append_eq_append_drop]
  exact hi.trans (List.prefix_append _ _)

/-- Fuel-driven worker for `replaceAll`; structural recursion on the fuel
keeps the function kernel-computable.  With nonempty `needle`, fuel
`hay.length` always suffices, since every step drops at least one
character. -/
def replaceAllFuel (needle repl : Str) : Nat → Str → Str
  | 0, hay => hay
  | fuel + 1, hay =>
    match strFind needle hay with
    | none => hay
    | some p =>
        hay.take p ++ repl ++
          replaceAllFuel needle repl fuel (hay.drop (p + needle.length))

/-- Python `str.replace(needle, repl)` for nonempty `needle`: rewrite the
leftmost occurrences left to right, non-overlapping, never rescanning
inserted text.  (Every call site in the sources passes a nonempty needle;
the `needle = []` guard just makes the function total.) -/
def replaceAll (needle repl hay : Str) : Str :=
  if needle = [] then hay else replaceAllFuel needle repl hay.length hay

theorem needle_length_pos {needle : Str} (hne : needle ≠ []) :
    1 ≤ needle.length := by
  cases hn : needle with
  | nil => exact absurd hn hne
  | cons a b => simp

theorem replaceAllFuel_congr {needle repl : Str} (hne : needle ≠ []) :
    ∀ (fuel₁ fuel₂ : Nat) (hay : Str), hay.length ≤ fuel₁ → hay.length ≤ fuel₂ →
      replaceAllFuel needle repl fuel₁ hay = replaceAllFuel needle repl fuel₂ hay := by
  intro fuel₁
  induction fuel₁ with
  | zero =>
    intro fuel₂ hay h1 h2
    have : hay = [] := List.length_eq_zero.mp (by omega)
    subst this
    cases fuel₂ with
    | zero => rfl
    | succ f =>
      show _ = replaceAllFuel needle repl (f + 1) []
      unfold replaceAllFuel
      have hf : strFind needle [] = none := by
        rw [← not_occursIn_iff_strFind_none]
        rintro ⟨i, hi⟩
        rw [List.drop_nil] at hi
        exact hne (List.prefix_nil.mp hi)
      rw [hf]
  | succ f ih =>
    intro fuel₂ hay h1 h2
    cases fuel₂ with
    | zero =>
      have : hay = [] := List.length_eq_zero.mp (by omega)
      subst this
      unfold replaceAllFuel
      have hf : strFind needle [] = none := by
        rw [← not_occursIn_iff_strFind_none]
        rintro ⟨i, hi⟩
        rw [List.drop_nil] at hi
        exact hne (List.prefix_nil.mp hi)
      rw [hf]
    | succ f₂ =>
      unfold replaceAllFuel
      cases hfind : strFind needle hay with
      | none => rfl
      | some p =>
        dsimp only
        have hb := strFind_some_bound hfind hne
        have h1n := needle_length_pos hne
        have hlen : (hay.drop (p + needle.length)).length ≤ f := by
          simp only [List.length_drop]
          omega
        have hlen2 : (hay.drop (p + needle.length)).length ≤ f₂ := by
          simp only [List.length_drop]
          omega
        rw [ih f₂ _ hlen hlen2]

theorem replaceAll_unfold {needle repl hay : Str} (hne : needle ≠ []) :
    replaceAll needle repl hay =
      match strFind needle hay with
      | none => hay
      | some p =>
          hay.take p ++ repl ++ replaceAll needle repl (hay.drop (p + needle.length)) := by
  cases hfind : strFind needle hay with
  | none =>
    dsimp only
    unfold replaceAll
    rw [if_neg hne]
    cases hay with
    | nil => rfl
    | cons c rest =>
      show replaceAllFuel needle repl (rest.length + 1) (c :: rest) = _
      unfold replaceAllFuel
      rw [hfind]
  | some p =>
    dsimp only
    have hb := strFind_some_bound hfind hne
    have h1n := needle_length_pos hne
    cases hay with
    | nil =>
      exfalso
      simp only [List.length_nil] at hb
      omega
    | cons c rest =>
      have hlen : ((c :: rest).drop (p + needle.length)).length ≤ rest.length := by
        simp only [List.length_drop, List.length_cons]
        omega
      have hstep : replaceAll needle repl (c :: rest) =
          (c :: rest).take p ++ repl ++
            replaceAllFuel needle repl rest.length
              ((c :: rest).drop (p + needle.length)) := by
        unfold replaceAll
        rw [if_neg hne]
        show replaceAllFuel needle repl (rest.length + 1) (c :: rest) = _
        conv_lhs => rw [replaceAllFuel]
        rw [hfind]
      rw [hstep]
      congr 1
      show _ = replaceAll needle repl _
      unfold replaceAll
      rw [if_neg hne]
      exact replaceAllFuel_congr hne rest.length _ _ hlen (le_refl _)

theorem replaceAll_of_not_occurs {needle repl hay : Str}
    (h : ¬ OccursIn needle hay) : replaceAll needle repl hay = hay := by
  by_cases hne : needle = []
  · unfold replaceAll
    rw [if_pos hne]
  · rw [not_occursIn_iff_strFind_none] at h
    rw [replaceAll_unfold hne, h]

/-! ## Stream splitter (`_PlanStreamSplitter`, `backend/app/routers/workflow.py`) -/

/-- The plan channel-switch marker `"【计划】"`. -/
def planMarker : Str := "【计划】".data

/-- The chat channel marker `"【对话】"`, erased from chat emissions. -/
def chatMarker : Str := "【对话】".data

/-- The tail kept in the chat branch:
`max(len(self.plan_marker) - 1, len(self.chat_marker) - 1, 8)`. -/
def keepChat : Nat := max (planMarker.length - 1) (max (chatMarker.length - 1) 8)

/-- The tail kept in the plan branch: `max(len(self.plan_marker) - 1, 8)`. -/
def keepPlan : Nat := max (planMarker.length - 1) 8

/-- The splitter mode: `self.mode` is `"chat"` or `"plan"`. -/
inductive Channel
  | chat
  | plan
deriving DecidableEq, Repr

/-- `_PlanStreamSplitter` state plus the concatenation (in emission order) of
everything broadcast so far on each channel. -/
structure SplitterState where
  mode : Channel
  buf : Str
  chatOut : Str
  planOut : Str
deriving DecidableEq, Repr

/-- Fresh splitter: `mode = "chat"`, empty buffer, nothing emitted. -/
def initSplitter : SplitterState := ⟨Channel.chat, [], [], []⟩

/-- The plan-mode loop body: when the buffer exceeds `keepPlan`, emit all but
the last `keepPlan` characters on the plan channel and keep the tail;
then the loop breaks. -/
def planStep (st : SplitterState) (buf : Str) : SplitterState :=
  if keepPlan < buf.length then
    { st with planOut := st.planOut ++ buf.take (buf.length - keepPlan),
              buf := buf.drop (buf.length - keepPlan) }
  else { st with buf := buf }

/-- `_PlanStreamSplitter.push`.  The `while True` loop runs at most two branch
bodies per call: the plan branch always breaks, and the chat branch either
breaks or switches to plan mode and continues into the plan branch once, so
the loop is unrolled into at most one chat step followed by one plan step. -/
def push (st : SplitterState) (chunk : Str) : SplitterState :=
  if chunk = [] then st
  else
    let buf := st.buf ++ chunk
    match st.mode with
    | Channel.plan => planStep st buf
    | Channel.chat =>
      match strFind planMarker buf with
      | some idx =>
          let pre := replaceAll chatMarker [] (buf.take idx)
          let post := buf.drop (idx + planMarker.length)
          planStep { st with mode := Channel.plan, chatOut := st.chatOut ++ pre } post
      | none =>
          if keepChat < buf.length then
            { st with
                chatOut := st.chatOut ++
                  replaceAll chatMarker [] (buf.take (buf.length - keepChat)),
                buf := buf.drop (buf.length - keepChat) }
          else { st with buf := buf }

/-- `_PlanStreamSplitter.flush`: emit the remaining buffer on the active
channel (chat emissions get chat markers erased, as in `push`). -/
def flush (st : SplitterState) : SplitterState :=
  if st.buf = [] then st
  else
    match st.mode with
    | Channel.plan => { st with planOut := st.planOut ++ st.buf, buf := [] }
    | Channel.chat =>
        { st with chatOut := st.chatOut ++ replaceAll chatMarker [] st.buf,
                  buf := [] }

/-- Feeding a chunk sequence to a fresh splitter, then flushing. -/
def splitRun (chunks : List Str) : SplitterState :=
  flush (chunks.foldl push initSplitter)

theorem planMarker_length : planMarker.length = 4 := rfl

theorem keepChat_eq : keepChat = 8 := rfl

theorem keepPlan_eq : keepPlan = 8 := rfl

theorem prefix_append_iff_left {n a b : Str} (h : n.length ≤ a.length) :
    n <+: a ++ b ↔ n <+: a := by
  constructor
  · intro hp
    have h1 : n = (a ++ b).take n.length := List.prefix_iff_eq_take.mp hp
    rw [List.take_append_of_le_length h] at h1
    rw [h1]
    exact List.take_prefix _ _
  · intro hp
    exact hp.trans (List.prefix_append a b)

theorem prefix_drop_iff {n x y : Str} (hxy : x <+: y) {i : Nat}
    (h : i + n.length ≤ x.length) : n <+: x.drop i ↔ n <+: y.drop i := by
  obtain ⟨z, rfl⟩ := hxy
  rw [List.drop_append_eq_append_drop]
  have hz : z.drop (i - x.length) = z := by
    have : i - x.length = 0 := by omega
    simp [this]
  rw [hz]
  rw [prefix_append_iff_left]
  simp only [List.length_drop]
  omega

theorem replace_id_of_sub {piece t : Str} (hchat : ¬ OccursIn chatMarker t)
    (h : piece <:+: t) : replaceAll chatMarker [] piece = piece :=
  replaceAll_of_not_occurs (fun ho => hchat (occursIn_of_sub h ho))

/-- The invariant tying a splitter state to the text `T` pushed so far:
in chat mode, the chat output plus the buffer reconstruct `T` and `T`
contains no plan marker yet; in plan mode, `T` splits as chat output,
first plan marker, then the plan output and buffer, and no plan-marker
occurrence starts before the chat output ends. -/
def SplitInv (T : Str) (st : SplitterState) : Prop :=
  (st.mode = Channel.chat ∧ st.planOut = [] ∧ st.chatOut ++ st.buf = T ∧
    ¬ OccursIn planMarker T ∧ (st.chatOut = [] ∨ 8 ≤ st.buf.length))
  ∨
  (st.mode = Channel.plan ∧
    st.chatOut ++ planMarker ++ st.planOut ++ st.buf = T ∧
    ∀ i < st.chatOut.length, ¬ planMarker <+: (st.chatOut ++ planMarker).drop i)

theorem planStep_spec (st : SplitterState) (b : Str) :
    (planStep st b).mode = st.mode ∧ (planStep st b).chatOut = st.chatOut ∧
    (planStep st b).planOut ++ (planStep st b).buf = st.planOut ++ b := by
  unfold planStep
  split
  · refine ⟨rfl, rfl, ?_⟩
    simp [List.append_assoc, List.take_append_drop]
  · exact ⟨rfl, rfl, rfl⟩

theorem planMarker_ne_nil : planMarker ≠ [] := by decide

theorem splitInv_push {t T : Str} {st : SplitterState} {chunk : Str}
    (hpre : T ++ chunk <+: t) (hchat : ¬ OccursIn chatMarker t)
    (hinv : SplitInv T st) : SplitInv (T ++ chunk) (push st chunk) := by
  by_cases hc : chunk = []
  · subst hc
    simpa [push] using hinv
  obtain ⟨mode, buf0, co, po⟩ := st
  rcases hinv with ⟨hm, hpo, hT, hocc, hlen⟩ | ⟨hm, hT, hmin⟩
  · -- chat mode
    replace hm : mode = Channel.chat := hm
    replace hpo : po = [] := hpo
    replace hT : co ++ buf0 = T := hT
    replace hlen : co = [] ∨ 8 ≤ buf0.length := hlen
    subst hm
    subst hpo
    subst hT
    have hbufsub : ∀ k : Nat, (buf0 ++ chunk).take k <:+: t := by
      intro k
      have h1 : (buf0 ++ chunk).take k <+: buf0 ++ chunk := List.take_prefix _ _
      have h2 : buf0 ++ chunk <:+ co ++ buf0 ++ chunk := by
        refine ⟨co, ?_⟩
        simp [List.append_assoc]
      exact (h1.isInfix.trans h2.isInfix).trans hpre.isInfix
    cases hfind : strFind planMarker (buf0 ++ chunk) with
    | none =>
      have hpush : push ⟨Channel.chat, buf0, co, []⟩ chunk =
          if keepChat < (buf0 ++ chunk).length then
            ⟨Channel.chat, (buf0 ++ chunk).drop ((buf0 ++ chunk).length - keepChat),
             co ++ replaceAll chatMarker []
               ((buf0 ++ chunk).take ((buf0 ++ chunk).length - keepChat)), []⟩
          else ⟨Channel.chat, buf0 ++ chunk, co, []⟩ := by
        simp only [push, if_neg hc, hfind]
      rw [hpush]
      have hocc' : ¬ OccursIn planMarker (co ++ buf0 ++ chunk) := by
        rintro ⟨i, hi⟩
        rw [List.append_assoc] at hi
        by_cases hico : i < co.length
        · rcases hlen with rfl | hlen8
          · simp at hico
          · have hx : co ++ buf0 <+: co ++ (buf0 ++ chunk) := by
              rw [← List.append_assoc]
              exact List.prefix_append _ _
            have hcond : i + planMarker.length ≤ (co ++ buf0).length := by
              rw [planMarker_length]
              simp only [List.length_append]
              omega
            rw [← prefix_drop_iff hx hcond] at hi
            exact hocc ⟨i, hi⟩
        · push_neg at hico
          have hi2 : planMarker <+: (buf0 ++ chunk).drop (i - co.length) := by
            rw [List.drop_append_eq_append_drop,
                List.drop_eq_nil_of_le hico, List.nil_append] at hi
            exact hi
          exact strFind_none hfind _ hi2
      split
      · rename_i hemit
        left
        refine ⟨rfl, rfl, ?_, hocc', ?_⟩
        · show co ++ replaceAll chatMarker [] _ ++ _ = _
          rw [replace_id_of_sub hchat (hbufsub _)]
          rw [List.append_assoc co, List.take_append_drop, List.append_assoc]
        · right
          show 8 ≤ ((buf0 ++ chunk).drop ((buf0 ++ chunk).length - keepChat)).length
          rw [keepChat_eq] at hemit ⊢
          simp only [List.length_drop]
          omega
      · rename_i hnoemit
        left
        refine ⟨rfl, rfl, by rw [List.append_assoc], hocc', ?_⟩
        rcases hlen with rfl | h8
        · exact Or.inl rfl
        · right
          show 8 ≤ (buf0 ++ chunk).length
          simp only [List.length_append]
          omega
    | some idx =>
      have hidxlen : idx + planMarker.length ≤ (buf0 ++ chunk).length :=
        strFind_some_bound hfind planMarker_ne_nil
      obtain ⟨rest, hrest⟩ := strFind_some_pfx hfind
      have hdrop4 : (buf0 ++ chunk).drop (idx + planMarker.length) = rest := by
        have h1 : (buf0 ++ chunk).drop (idx + planMarker.length) =
            ((buf0 ++ chunk).drop idx).drop planMarker.length := by
          rw [List.drop_drop]
        rw [h1, ← hrest, List.drop_left]
      have hsplit : buf0 ++ chunk =
          (buf0 ++ chunk).take idx ++ planMarker ++
            (buf0 ++ chunk).drop (idx + planMarker.length) := by
        rw [hdrop4, List.append_assoc, hrest, List.take_append_drop]
      have htklen : ((buf0 ++ chunk).take idx).length = idx := by
        rw [List.length_take]
        omega
      have hpush : push ⟨Channel.chat, buf0, co, []⟩ chunk =
          planStep ⟨Channel.plan, buf0,
            co ++ replaceAll chatMarker [] ((buf0 ++ chunk).take idx), []⟩
            ((buf0 ++ chunk).drop (idx + planMarker.length)) := by
        simp only [push, if_neg hc, hfind]
      rw [hpush]
      rw [replace_id_of_sub hchat (hbufsub idx)] at hpush ⊢
      obtain ⟨hm2, hco2, hpb2⟩ := planStep_spec
        ⟨Channel.plan, buf0, co ++ (buf0 ++ chunk).take idx, []⟩
        ((buf0 ++ chunk).drop (idx + planMarker.length))
      have hco3 : (planStep ⟨Channel.plan, buf0, co ++ (buf0 ++ chunk).take idx, []⟩
          ((buf0 ++ chunk).drop (idx + planMarker.length))).chatOut =
          co ++ (buf0 ++ chunk).take idx := hco2
      have hpb3 : (planStep ⟨Channel.plan, buf0, co ++ (buf0 ++ chunk).take idx, []⟩
          ((buf0 ++ chunk).drop (idx + planMarker.length))).planOut ++
          (planStep ⟨Channel.plan, buf0, co ++ (buf0 ++ chunk).take idx, []⟩
          ((buf0 ++ chunk).drop (idx + planMarker.length))).buf =
          (buf0 ++ chunk).drop (idx + planMarker.length) := by
        rw [hpb2]
        rfl
      right
      refine ⟨hm2, ?_, ?_⟩
      · rw [List.append_assoc ((planStep _ _).chatOut ++ planMarker)]
        rw [hpb3, hco3]
        conv_rhs => rw [List.append_assoc, hsplit]
        simp [List.append_assoc]
      · rw [hco3]
        intro i hi
        simp only [List.length_append, htklen] at hi
        -- transfer the would-be occurrence up to `co ++ (buf0 ++ chunk)`
        have hX : (co ++ (buf0 ++ chunk).take idx) ++ planMarker <+:
            co ++ (buf0 ++ chunk) := by
          refine ⟨(buf0 ++ chunk).drop (idx + planMarker.length), ?_⟩
          rw [List.append_assoc, List.append_assoc]
          congr 1
          rw [← List.append_assoc]
          exact hsplit.symm
        intro hcontra
        have hlenX : i + planMarker.length ≤
            ((co ++ (buf0 ++ chunk).take idx) ++ planMarker).length := by
          simp only [List.length_append, htklen]
          omega
        rw [prefix_drop_iff hX hlenX] at hcontra
        by_cases hico : i < co.length
        · rcases hlen with rfl | hlen8
          · simp at hico
          · have hx : co ++ buf0 <+: co ++ (buf0 ++ chunk) := by
              rw [← List.append_assoc]
              exact List.prefix_append _ _
            have hcond : i + planMarker.length ≤ (co ++ buf0).length := by
              rw [planMarker_length]
              simp only [List.length_append]
              omega
            rw [← prefix_drop_iff hx hcond] at hcontra
            exact hocc ⟨i, hcontra⟩
        · push_neg at hico
          have hi2 : planMarker <+: (buf0 ++ chunk).drop (i - co.length) := by
            rw [List.drop_append_eq_append_drop,
                List.drop_eq_nil_of_le hico, List.nil_append] at hcontra
            exact hcontra
          exact strFind_some_min hfind (i - co.length) (by omega) hi2
  · -- plan mode
    replace hm : mode = Channel.plan := hm
    replace hT : co ++ planMarker ++ po ++ buf0 = T := hT
    replace hmin : ∀ i < co.length, ¬ planMarker <+: (co ++ planMarker).drop i := hmin
    subst hm
    have hpush : push ⟨Channel.plan, buf0, co, po⟩ chunk =
        planStep ⟨Channel.plan, buf0, co, po⟩ (buf0 ++ chunk) := by
      simp only [push, if_neg hc]
    rw [hpush]
    obtain ⟨hm2, hco2, hpb2⟩ := planStep_spec ⟨Channel.plan, buf0, co, po⟩ (buf0 ++ chunk)
    right
    refine ⟨hm2, ?_, ?_⟩
    · rw [List.append_assoc, List.append_assoc, hpb2, hco2, ← hT]
      simp [List.append_assoc]
    · rw [hco2]
      exact hmin

theorem splitInv_foldl {t : Str} (hchat : ¬ OccursIn chatMarker t) :
    ∀ (pending : List Str) (T : Str) (st : SplitterState),
      SplitInv T st → T ++ pending.flatten = t →
      SplitInv t (pending.foldl push st) := by
  intro pending
  induction pending with
  | nil =>
    intro T st hinv heq
    simp only [List.flatten_nil, List.append_nil] at heq
    subst heq
    simpa using hinv
  | cons c cs ih =>
    intro T st hinv heq
    simp only [List.flatten_cons, ← List.append_assoc] at heq
    simp only [List.foldl_cons]
    apply ih (T ++ c) (push st c)
    · exact splitInv_push ⟨cs.flatten, heq⟩ hchat hinv
    · exact heq

theorem flush_plan_eq (buf co po : Str) :
    flush ⟨Channel.plan, buf, co, po⟩ = ⟨Channel.plan, [], co, po ++ buf⟩ := by
  unfold flush
  split
  · rename_i hb
    replace hb : buf = [] := hb
    subst hb
    simp
  · rfl

/-- C1, counterexample: on the single-chunk input `"【对话】hi【计划】p"` (its first
plan-marker occurrence starts at index 6), concatenating the chat emissions
and then the plan emissions yields `"hip"`, not the source text with the
plan marker removed (`"【对话】hip"`): the splitter also erases chat markers
from chat emissions, so the reconstruction claimed for every marker-containing
text fails. -/
theorem c1_counterexample :
    strFind planMarker ("【对话】hi【计划】p".data) = some 6 ∧
    (splitRun ["【对话】hi【计划】p".data]).chatOut ++
        (splitRun ["【对话】hi【计划】p".data]).planOut ≠
      ("【对话】hi【计划】p".data).take 6 ++
        ("【对话】hi【计划】p".data).drop (6 + planMarker.length) := by
  constructor
  · decide
  · decide

/-- C1 (amended): for every source text that contains the plan marker and
contains no occurrence of the chat marker `"【对话】"`, and for every way of
splitting that text into chunks fed sequentially to the stream splitter
followed by a final flush, concatenating all chat emissions followed by all
plan emissions (in emission order) reconstructs the text with its first
plan-marker occurrence removed.  The right-hand side depends only on the
concatenation of the chunks, so the result is the same for every chunking
of the same source string. -/
theorem c1_splitter_reconstruction (chunks : List Str) (p : Nat)
    (hfind : strFind planMarker chunks.flatten = some p)
    (hchat : ¬ OccursIn chatMarker chunks.flatten) :
    (splitRun chunks).chatOut ++ (splitRun chunks).planOut =
      chunks.flatten.take p ++ chunks.flatten.drop (p + planMarker.length) := by
  have hinv0 : SplitInv ([] : Str) initSplitter := by
    left
    refine ⟨rfl, rfl, rfl, ?_, Or.inl rfl⟩
    rintro ⟨i, hi⟩
    rw [List.drop_nil] at hi
    exact planMarker_ne_nil (List.prefix_nil.mp hi)
  have hfold := splitInv_foldl hchat chunks [] initSplitter hinv0 (by simp)
  unfold splitRun
  rcases hE : chunks.foldl push initSplitter with ⟨m, b, c, q⟩
  rw [hE] at hfold
  rcases hfold with ⟨_, _, _, hocc, _⟩ | ⟨hm, hT, hmin⟩
  · exact absurd ⟨p, strFind_some_pfx hfind⟩ hocc
  · replace hm : m = Channel.plan := hm
    replace hT : c ++ planMarker ++ q ++ b = chunks.flatten := hT
    replace hmin : ∀ i < c.length, ¬ planMarker <+: (c ++ planMarker).drop i := hmin
    subst hm
    rw [flush_plan_eq]
    have hT2 : c ++ (planMarker ++ (q ++ b)) = chunks.flatten := by
      rw [← hT]
      simp [List.append_assoc]
    have hT3 : (c ++ planMarker) ++ (q ++ b) = chunks.flatten := by
      rw [← hT]
      simp [List.append_assoc]
    have hp_at : planMarker <+: chunks.flatten.drop c.length := by
      rw [← hT2, List.drop_left]
      exact List.prefix_append _ _
    have hp_min : ∀ i < c.length, ¬ planMarker <+: chunks.flatten.drop i := by
      intro i hi hcon
      have hX : c ++ planMarker <+: chunks.flatten := ⟨q ++ b, hT3⟩
      have hlen : i + planMarker.length ≤ (c ++ planMarker).length := by
        simp only [List.length_append]
        omega
      rw [← prefix_drop_iff hX hlen] at hcon
      exact hmin i hi hcon
    have hpc : p = c.length := by
      by_contra hne
      rcases Nat.lt_or_ge p c.length with hlt | hge
      · exact hp_min p hlt (strFind_some_pfx hfind)
      · exact strFind_some_min hfind c.length (by omega) hp_at
    subst hpc
    have htake : chunks.flatten.take c.length = c := by
      rw [← hT2, List.take_left]
    have hdrop : chunks.flatten.drop (c.length + planMarker.length) = q ++ b := by
      rw [← hT3]
      have h1 : (c ++ planMarker).length = c.length + planMarker.length := by
        simp [List.length_append]
      rw [← h1, List.drop_left]
    rw [htake, hdrop]

/-- C1 witness: the amended reconstruction theorem applied to the
two-chunk input `["ab【计", "划】cd"]`, whose marker straddles the chunk
boundary. -/
theorem c1_splitter_reconstruction_witness :
    strFind planMarker (["ab【计".data, "划】cd".data] : List Str).flatten = some 2 ∧
    ¬ OccursIn chatMarker (["ab【计".data, "划】cd".data] : List Str).flatten ∧
    (splitRun ["ab【计".data, "划】cd".data]).chatOut ++
        (splitRun ["ab【计".data, "划】cd".data]).planOut =
      (["ab【计".data, "划】cd".data] : List Str).flatten.take 2 ++
        (["ab【计".data, "划】cd".data] : List Str).flatten.drop (2 + planMarker.length) :=
  ⟨by decide, by decide,
    c1_splitter_reconstruction ["ab【计".data, "划】cd".data] 2 (by decide) (by decide)⟩

/-! ## Placeholder patterns (`MERMAID_PATTERN` / `HTML_PATTERN` in
`backend/app/nodes/writer.py` and `assembler.py`) -/

/-- The left-brace character. -/
def lbrace : Char := '\x7b'

/-- The right-brace character. -/
def rbrace : Char := '\x7d'

/-- The backtick character. -/
def btick : Char := '\x60'

/-- The literal pattern prefix before a mermaid description. -/
def mermaidPre : Str := "\x7b\x7bMERMAID:".data

/-- The literal pattern prefix before an HTML description. -/
def htmlPre : Str := "\x7b\x7bHTML:".data

/-- One attempted match of the regex pattern `[prefix]([^\x7d]+)\x7d\x7d` at
the head of `s`.  The greedy group `[^\x7d]+` with backtracking succeeds
exactly when a nonempty run of non-right-brace characters after the prefix
is followed immediately by two right braces: the group cannot stop before
the first right brace, since giving back a character would require a
non-right-brace character to match a right brace.  Returns the matched
description and the total length of the match. -/
def scanMatch (pre s : Str) : Option (Str × Nat) :=
  if pre <+: s then
    if ((s.drop pre.length).takeWhile (fun c => c ≠ rbrace)) ≠ [] ∧
        [rbrace, rbrace] <+:
          (s.drop pre.length).drop
            ((s.drop pre.length).takeWhile (fun c => c ≠ rbrace)).length then
      some ((s.drop pre.length).takeWhile (fun c => c ≠ rbrace),
        pre.length + ((s.drop pre.length).takeWhile (fun c => c ≠ rbrace)).length + 2)
    else none
  else none

/-- Fuel-driven worker for `findAll` (structural recursion on the fuel
keeps it kernel-computable; fuel `s.length` always suffices). -/
def findAllFuel (pre : Str) : Nat → Str → List Str
  | 0, _ => []
  | fuel + 1, s =>
    match s with
    | [] => []
    | c :: rest =>
      match scanMatch pre (c :: rest) with
      | some (d, len) => d :: findAllFuel pre fuel (rest.drop (len - 1))
      | none => findAllFuel pre fuel rest

/-- Python `re.findall(PATTERN, s)`: descriptions of the leftmost
non-overlapping matches, scanning left to right and jumping past each
match. -/
def findAll (pre s : Str) : List Str := findAllFuel pre s.length s

theorem findAllFuel_congr (pre : Str) :
    ∀ (fuel₁ fuel₂ : Nat) (s : Str), s.length ≤ fuel₁ → s.length ≤ fuel₂ →
      findAllFuel pre fuel₁ s = findAllFuel pre fuel₂ s := by
  intro fuel₁
  induction fuel₁ with
  | zero =>
    intro fuel₂ s h1 h2
    have : s = [] := List.length_eq_zero.mp (by omega)
    subst this
    cases fuel₂ <;> rfl
  | succ f ih =>
    intro fuel₂ s h1 h2
    cases fuel₂ with
    | zero =>
      have : s = [] := List.length_eq_zero.mp (by omega)
      subst this
      rfl
    | succ f₂ =>
      cases s with
      | nil => rfl
      | cons c rest =>
        show (match scanMatch pre (c :: rest) with
          | some (d, len) => d :: findAllFuel pre f (rest.drop (len - 1))
          | none => findAllFuel pre f rest) =
          (match scanMatch pre (c :: rest) with
          | some (d, len) => d :: findAllFuel pre f₂ (rest.drop (len - 1))
          | none => findAllFuel pre f₂ rest)
        cases scanMatch pre (c :: rest) with
        | none =>
          dsimp only
          exact ih f₂ rest (by simp at h1; omega) (by simp at h2; omega)
        | some pr =>
          obtain ⟨d, len⟩ := pr
          dsimp only
          have hd : (rest.drop (len - 1)).length ≤ rest.length := by
            simp only [List.length_drop]
            omega
          simp only [List.length_cons] at h1 h2
          rw [ih f₂ _ (by omega) (by omega)]

theorem findAll_nil (pre : Str) : findAll pre [] = [] := rfl

theorem findAll_cons (pre : Str) (c : Char) (rest : Str) :
    findAll pre (c :: rest) =
      match scanMatch pre (c :: rest) with
      | some (d, len) => d :: findAll pre (rest.drop (len - 1))
      | none => findAll pre rest := by
  show findAllFuel pre (rest.length + 1) (c :: rest) = _
  show (match scanMatch pre (c :: rest) with
    | some (d, len) => d :: findAllFuel pre rest.length (rest.drop (len - 1))
    | none => findAllFuel pre rest.length rest) = _
  cases scanMatch pre (c :: rest) with
  | none => rfl
  | some pr =>
    obtain ⟨d, len⟩ := pr
    dsimp only
    rw [findAllFuel_congr pre rest.length _ _ (by simp [List.length_drop]) (le_refl _)]
    rfl

/-- Python `str.strip()` whitespace test (ASCII whitespace suffices for the
descriptions the sources manipulate). -/
def pyIsSpace (c : Char) : Bool :=
  c = ' ' || c = '\t' || c = '\n' || c = '\r' || c = '\x0b' || c = '\x0c'

/-- Python `str.strip()`: drop whitespace from both ends. -/
def pyStrip (s : Str) : Str :=
  ((s.dropWhile pyIsSpace).reverse.dropWhile pyIsSpace).reverse

/-- A placeholder record `{"id": ..., "description": ...}` as produced by
`writer._extract_placeholders`. -/
structure Placeholder where
  id : String
  description : Str
deriving DecidableEq, Repr

/-- `writer._extract_placeholders`: `findall` both patterns over the draft,
number the matches from 1 as `mermaid_<i>` / `html_<i>`, and strip
whitespace around each description. -/
def extractPlaceholders (draft : Str) : List Placeholder × List Placeholder :=
  ((findAll mermaidPre draft).mapIdx
      (fun i d => ⟨"mermaid_" ++ toString (i + 1), pyStrip d⟩),
   (findAll htmlPre draft).mapIdx
      (fun i d => ⟨"html_" ++ toString (i + 1), pyStrip d⟩))

/-- A well-formed placeholder-pattern match at position `i` of `s` with
description `d`: the pattern prefix, a nonempty right-brace-free
description, then two right braces. -/
def MatchAt (pre s : Str) (i : Nat) (d : Str) : Prop :=
  d ≠ [] ∧ rbrace ∉ d ∧ (pre ++ d ++ [rbrace, rbrace]) <+: s.drop i

theorem takeWhile_eq_of_break {p : Char → Bool} (d : Str) (c : Char) (r : Str)
    (hall : ∀ x ∈ d, p x = true) (hc : p c = false) :
    (d ++ c :: r).takeWhile p = d := by
  induction d with
  | nil => simp [List.takeWhile, hc]
  | cons a t ih =>
    have ha : p a = true := hall a (by simp)
    have ht := ih (fun x hx => hall x (by simp [hx]))
    simp [List.takeWhile_cons, ha, ht]

theorem scanMatch_some_imp {pre s d : Str} {len : Nat}
    (h : scanMatch pre s = some (d, len)) :
    MatchAt pre s 0 d ∧ len = pre.length + d.length + 2 := by
  unfold scanMatch at h
  split at h
  · rename_i hp
    split at h
    · rename_i hcond
      obtain ⟨hrun, hbr⟩ := hcond
      simp only [Option.some.injEq, Prod.mk.injEq] at h
      obtain ⟨hd, hlen⟩ := h
      subst hd
      subst hlen
      have hnb : rbrace ∉ (s.drop pre.length).takeWhile (fun c => c ≠ rbrace) := by
        intro hmem
        have := List.mem_takeWhile_imp hmem
        simp at this
      refine ⟨⟨hrun, hnb, ?_⟩, rfl⟩
      rw [List.drop_zero]
      have htw : (s.drop pre.length).takeWhile (fun c => c ≠ rbrace) <+:
          s.drop pre.length := List.takeWhile_prefix _
      have hrest : s.drop pre.length =
          (s.drop pre.length).takeWhile (fun c => c ≠ rbrace) ++
            (s.drop pre.length).drop
              ((s.drop pre.length).takeWhile (fun c => c ≠ rbrace)).length := by
        have h1 := List.prefix_iff_eq_take.mp htw
        conv_lhs => rw [← List.take_append_drop
          ((s.drop pre.length).takeWhile (fun c => c ≠ rbrace)).length (s.drop pre.length)]
        rw [← h1]
      obtain ⟨tail2, htail2⟩ := hbr
      obtain ⟨tail, htail⟩ := hp
      have hs : s = pre ++ s.drop pre.length := by
        conv_lhs => rw [← htail]
        congr 1
        rw [← htail, List.drop_left]
      refine ⟨tail2, ?_⟩
      conv_rhs => rw [hs, hrest, ← htail2]
      simp [List.append_assoc]
    · simp at h
  · simp at h

theorem matchAt_zero_imp_scan {pre s d : Str} (h : MatchAt pre s 0 d) :
    scanMatch pre s = some (d, pre.length + d.length + 2) := by
  obtain ⟨hne, hnb, hp⟩ := h
  rw [List.drop_zero] at hp
  obtain ⟨tail2, htail2⟩ := hp
  have hps : pre <+: s :=
    ⟨d ++ [rbrace, rbrace] ++ tail2, by rw [← htail2]; simp [List.append_assoc]⟩
  have hrest : s.drop pre.length = d ++ rbrace :: rbrace :: tail2 := by
    rw [← htail2]
    simp only [List.append_assoc]
    rw [List.drop_left]
    simp
  have hrun : (s.drop pre.length).takeWhile (fun c => c ≠ rbrace) = d := by
    rw [hrest]
    apply takeWhile_eq_of_break
    · intro x hx
      have : x ≠ rbrace := fun heq => hnb (heq ▸ hx)
      simpa using this
    · simp
  unfold scanMatch
  rw [if_pos hps, hrun]
  have hdrop : (s.drop pre.length).drop d.length = rbrace :: rbrace :: tail2 := by
    rw [hrest, List.drop_left]
  rw [if_pos ⟨hne, by rw [hdrop]; exact ⟨tail2, rfl⟩⟩]

theorem matchAt_cons_succ {pre : Str} {c : Char} {rest : Str} {j : Nat} {d : Str} :
    MatchAt pre (c :: rest) (j + 1) d ↔ MatchAt pre rest j d := by
  unfold MatchAt
  rw [List.drop_succ_cons]

theorem matchAt_nil {pre : Str} (i : Nat) (d : Str) : ¬ MatchAt pre [] i d := by
  rintro ⟨hne, hnb, hp⟩
  rw [List.drop_nil] at hp
  have := List.prefix_nil.mp hp
  simp at this

/-- Declarative `re.findall` semantics for the placeholder pattern: the
description list obtained by repeatedly taking the leftmost match of the
pattern and resuming immediately after it, so the listed matches are
non-overlapping and in document order. -/
inductive GreedyDescs (pre : Str) : Str → List Str → Prop where
  | nil {s : Str} (hnone : ∀ i d, ¬ MatchAt pre s i d) : GreedyDescs pre s []
  | cons {s : Str} {i : Nat} {d : Str} {ds : List Str}
      (hm : MatchAt pre s i d)
      (hmin : ∀ j d₂, MatchAt pre s j d₂ → i ≤ j)
      (hrest : GreedyDescs pre (s.drop (i + (pre.length + d.length + 2))) ds) :
      GreedyDescs pre s (d :: ds)

theorem greedy_shift {pre : Str} {c : Char} {rest : Str} {ds : List Str}
    (hnone : scanMatch pre (c :: rest) = none)
    (h : GreedyDescs pre rest ds) : GreedyDescs pre (c :: rest) ds := by
  cases h with
  | nil hn =>
    apply GreedyDescs.nil
    intro i d hm
    cases i with
    | zero =>
      rw [matchAt_zero_imp_scan hm] at hnone
      simp at hnone
    | succ j => exact hn j d (matchAt_cons_succ.mp hm)
  | cons hm hmin hrest =>
    rename_i i d ds'
    refine GreedyDescs.cons (matchAt_cons_succ.mpr hm) ?_ ?_
    · intro j d₂ hj
      cases j with
      | zero =>
        rw [matchAt_zero_imp_scan hj] at hnone
        simp at hnone
      | succ k =>
        have := hmin k d₂ (matchAt_cons_succ.mp hj)
        omega
    · rw [show i + 1 + (pre.length + d.length + 2) =
        (i + (pre.length + d.length + 2)) + 1 by omega]
      rw [List.drop_succ_cons]
      exact hrest

theorem findAll_greedy_fuel (pre : Str) :
    ∀ (n : Nat) (s : Str), s.length ≤ n → GreedyDescs pre s (findAll pre s) := by
  intro n
  induction n with
  | zero =>
    intro s hs
    have : s = [] := List.length_eq_zero.mp (by omega)
    subst this
    rw [findAll_nil]
    exact GreedyDescs.nil (matchAt_nil)
  | succ n ih =>
    intro s hs
    cases s with
    | nil =>
      rw [findAll_nil]
      exact GreedyDescs.nil (matchAt_nil)
    | cons c rest =>
      rw [findAll_cons]
      cases hscan : scanMatch pre (c :: rest) with
      | none =>
        dsimp only
        simp only [List.length_cons] at hs
        exact greedy_shift hscan (ih rest (by omega))
      | some pr =>
        obtain ⟨d, len⟩ := pr
        dsimp only
        obtain ⟨hm, hlen⟩ := scanMatch_some_imp hscan
        subst hlen
        refine GreedyDescs.cons hm (fun j d₂ _ => Nat.zero_le j) ?_
        have hdrop : (c :: rest).drop (0 + (pre.length + d.length + 2)) =
            rest.drop (pre.length + d.length + 2 - 1) := by
          rw [Nat.zero_add]
          rw [show pre.length + d.length + 2 =
            (pre.length + d.length + 2 - 1) + 1 by omega]
          rw [List.drop_succ_cons]
          congr 1
        rw [hdrop]
        simp only [List.length_cons] at hs
        exact ih _ (by simp only [List.length_drop]; omega)

theorem findAll_greedy (pre s : Str) : GreedyDescs pre s (findAll pre s) :=
  findAll_greedy_fuel pre s.length s (le_refl _)

/-- C10 (confirmed): for every draft string, the writer placeholder
extraction returns, for each pattern, exactly the descriptions of the
leftmost non-overlapping pattern matches in document order, numbered
`mermaid_1 … mermaid_N` (resp. `html_1 … html_N`), each stored description
being the matched text with surrounding whitespace stripped. -/
theorem c10_extract_placeholders (draft : Str) :
    ∃ ms hs : List Str,
      GreedyDescs mermaidPre draft ms ∧ GreedyDescs htmlPre draft hs ∧
      (extractPlaceholders draft).1 =
        ms.mapIdx (fun i d => ⟨"mermaid_" ++ toString (i + 1), pyStrip d⟩) ∧
      (extractPlaceholders draft).2 =
        hs.mapIdx (fun i d => ⟨"html_" ++ toString (i + 1), pyStrip d⟩) :=
  ⟨findAll mermaidPre draft, findAll htmlPre draft,
    findAll_greedy _ _, findAll_greedy _ _, rfl, rfl⟩

/-! ## Workflow state (`WorkflowState`, `backend/app/schemas/workflow.py`).

The Python state is a dict (or pydantic model) threaded through the nodes;
the embedded record keeps exactly the keys the embedded nodes read or
write.  A key that is missing and a key holding a falsy value (`""`, `[]`,
`None`) are indistinguishable at every modelled use site (`dict.get` plus
truthiness), so both are represented by the empty/default value. -/

/-- One itemized per-placeholder error, as appended to the assembler's
`errors` list. -/
structure ErrItem where
  type : String
  id : String
  description : Str
  error : String
deriving DecidableEq, Repr

/-- An `error` dict as built by the nodes (`error_type`, `error_message`,
`retry_guidance`, and — on the assembler's failure path only — the
itemized `failed_items`, modelled as `[]` where the source omits the
key). -/
structure ErrInfo where
  error_type : String
  error_message : String
  retry_guidance : String
  failed_items : List ErrItem := []
deriving DecidableEq, Repr

/-- The `doc_variables` keys read by the embedded nodes (`doc_type`,
`outline`, `plan_md`, `write_mode`); the dict holds further free-form keys
that no embedded code path inspects. -/
structure DocVars where
  doc_type : Str := []
  outline : List Str := []
  plan_md : Str := []
  write_mode : Option String := none
deriving DecidableEq, Repr

/-- An attachment record; an empty `summary` marks "not yet analyzed"
(`not a.get("summary")`). -/
structure Attachment where
  id : String
  filename : String
  summary : Str := []
deriving DecidableEq, Repr

/-- An audit record appended to `node_runs`.  The source also stores
`prompt_spec`, `result` and `timestamp`; they are diagnostic payloads never
read back by any node or router, so the embedding keeps the discriminating
fields (`node_type`, `status`, `error`). -/
structure NodeRun where
  node_type : String
  status : String
  error : Option ErrInfo := none
deriving DecidableEq, Repr

/-- The workflow state.  `mermaid_codes` / `html_codes` are the artifact
maps placeholder-id ↦ generated code (the value dict's only field read by
the assembler is `"code"`, via `.get("code", "")`). -/
structure WState where
  doc_variables : DocVars := {}
  attachments : List Attachment := []
  chat_history : List (String × Str) := []
  draft_md : Str := []
  mermaid_placeholders : List Placeholder := []
  html_placeholders : List Placeholder := []
  mermaid_codes : List (String × Str) := []
  html_codes : List (String × Str) := []
  final_md : Str := []
  assembly_errors : List ErrItem := []
  current_node : String := "controller"
  node_status : String := "pending"
  error : Option ErrInfo := none
  retry_count : Nat := 0
  max_retries : Nat := 3
  node_runs : List NodeRun := []
  decision : String := ""
  ready_to_write : Bool := false
deriving DecidableEq, Repr

/-- Python dict lookup on an association list with unique keys
(`ph["id"] in codes` / `codes[ph["id"]]`). -/
def alookup (k : String) (l : List (String × Str)) : Option Str :=
  (l.find? (fun p => p.1 = k)).map Prod.snd

/-! ## Assembler node (`backend/app/nodes/assembler.py`, `run`) -/

/-- The placeholder type tag (the two replacement loops differ only in
pattern, artifact map and fence language). -/
inductive PType
  | mermaid
  | html
deriving DecidableEq, Repr

/-- The pattern prefix for a placeholder type. -/
def preOf : PType → Str
  | PType.mermaid => mermaidPre
  | PType.html => htmlPre

/-- The loop's `type` field for the error items. -/
def ptypeName : PType → String
  | PType.mermaid => "mermaid"
  | PType.html => "html"

/-- The literal placeholder text rebuilt by the assembler:
`f"\x7b\x7b{TYPE}:{description}\x7d\x7d"`. -/
def slotLit (ty : PType) (d : Str) : Str := preOf ty ++ d ++ [rbrace, rbrace]

/-- The fenced replacement block `f"\x60\x60\x60{lang}\n{code}\n\x60\x60\x60"`. -/
def fenceOf : PType → Str → Str
  | PType.mermaid, code => "\x60\x60\x60mermaid\n".data ++ code ++ "\n\x60\x60\x60".data
  | PType.html, code => "\x60\x60\x60html\n".data ++ code ++ "\n\x60\x60\x60".data

/-- One iteration of the assembler's replacement loop: replace every
occurrence of the rebuilt placeholder by the fenced artifact, or record an
itemized error when the id has no artifact. -/
def assembleStep (ty : PType) (codes : List (String × Str))
    (acc : Str × List ErrItem) (ph : Placeholder) : Str × List ErrItem :=
  match alookup ph.id codes with
  | some code =>
      (replaceAll (slotLit ty ph.description) (fenceOf ty code) acc.1, acc.2)
  | none => (acc.1, acc.2 ++ [⟨ptypeName ty, ph.id, ph.description, "找不到对应的代码"⟩])

/-- `assembler.run`.  The consistency check `_check_consistency` and the
`validation_report` only populate the diagnostic report (they never affect
control flow, the errors list, or any field another node reads), and the
`except` handler is unreachable in the typed model (the loop body cannot
raise), so both are omitted. -/
def assemblerRun (s : WState) : WState :=
  if s.draft_md = [] then
    { s with
        current_node := "assembler",
        node_status := "fail",
        error := some ⟨"missing_draft", "没有待整合的草稿", "返回撰写节点生成草稿", []⟩ }
  else
    let m := s.mermaid_placeholders.foldl
      (assembleStep PType.mermaid s.mermaid_codes) (s.draft_md, [])
    let h := s.html_placeholders.foldl
      (assembleStep PType.html s.html_codes) (m.1, m.2)
    let errors := h.2 ++
      (findAll mermaidPre h.1).map (fun desc => ⟨"mermaid", "unknown", desc, "占位符未被替换"⟩) ++
      (findAll htmlPre h.1).map (fun desc => ⟨"html", "unknown", desc, "占位符未被替换"⟩)
    if errors ≠ [] then
      let err : ErrInfo := ⟨"assembly_failed",
        toString errors.length ++ " 个占位符无法替换",
        "返回图文节点重新生成缺失的代码", errors⟩
      { s with
          assembly_errors := errors,
          node_runs := s.node_runs ++ [⟨"assembler", "fail", some err⟩],
          current_node := "assembler",
          node_status := "fail",
          error := some err,
          retry_count := s.retry_count + 1 }
    else
      { s with
          final_md := h.1,
          assembly_errors := [],
          node_runs := s.node_runs ++ [⟨"assembler", "success", none⟩],
          current_node := "assembler",
          node_status := "success",
          error := none }

/-- Scenario B of the spec: draft with one mermaid placeholder, the
placeholder list for it, and empty artifact maps. -/
def scenarioB : WState :=
  { draft_md := "# Doc\n\x7b\x7bMERMAID:flow\x7d\x7d\nend".data,
    mermaid_placeholders := [⟨"mermaid_1", "flow".data⟩] }

/-- C6, counterexample: on Scenario B the assembler does fail with kind
`assembly_failed`, but its itemized error list has two entries, not
exactly one: the per-id entry for `mermaid_1` and a second entry with id
`"unknown"` produced by the rescan of the still-unreplaced placeholder
text. -/
theorem c6_counterexample :
    (assemblerRun scenarioB).node_status = "fail" ∧
    ((assemblerRun scenarioB).error.map (fun e => e.error_type)) =
      some "assembly_failed" ∧
    ((assemblerRun scenarioB).error.map (fun e => e.failed_items.length)) =
      some 2 ∧
    ((assemblerRun scenarioB).error.map (fun e => e.failed_items.length)) ≠
      some 1 := by
  refine ⟨by decide, by decide, by decide, by decide⟩

/-- C6 (amended): on Scenario B the assembler returns `node_status = fail`
with `error_type = assembly_failed`, the failure message counts two
unresolvable placeholders, and the itemized list holds exactly two
entries — one for `mermaid_1` (no artifact) and one with id `"unknown"`
for the leftover placeholder text — with `retry_count` incremented. -/
theorem c6_scenarioB_assembly_failed :
    (assemblerRun scenarioB).node_status = "fail" ∧
    (assemblerRun scenarioB).error =
      some ⟨"assembly_failed", "2 个占位符无法替换", "返回图文节点重新生成缺失的代码",
        [⟨"mermaid", "mermaid_1", "flow".data, "找不到对应的代码"⟩,
         ⟨"mermaid", "unknown", "flow".data, "占位符未被替换"⟩]⟩ ∧
    (assemblerRun scenarioB).assembly_errors =
      [⟨"mermaid", "mermaid_1", "flow".data, "找不到对应的代码"⟩,
       ⟨"mermaid", "unknown", "flow".data, "占位符未被替换"⟩] ∧
    (assemblerRun scenarioB).retry_count = 1 ∧
    (assemblerRun scenarioB).node_runs.length = 1 := by
  refine ⟨by decide, by decide, by decide, by decide, by decide⟩

/-! ## Draft decompositions.

The assembler correctness claim is settled for drafts that decompose into
plain fragments interleaved with well-formed placeholder slots; the
lemmas below relate `findAll` / `replaceAll` to such decompositions. -/

/-- A draft fragment: plain text, or a placeholder slot of a given type
with its description. -/
abbrev Piece := Str ⊕ PType × Str

/-- The text of one fragment. -/
def renderPiece : Piece → Str
  | Sum.inl s => s
  | Sum.inr (ty, d) => slotLit ty d

/-- The text of a decomposed draft. -/
def render (ps : List Piece) : Str := (ps.map renderPiece).flatten

/-- Scanning side conditions: plain fragments contain no left brace, and
slot descriptions are nonempty and brace-free. -/
def ScanPiece : Piece → Prop
  | Sum.inl s => lbrace ∉ s
  | Sum.inr (_, d) => d ≠ [] ∧ lbrace ∉ d ∧ rbrace ∉ d

theorem preOf_parts (ty : PType) :
    ∃ p2, preOf ty = lbrace :: lbrace :: p2 ∧ lbrace ∉ p2 ∧ rbrace ∉ p2 ∧ p2 ≠ [] := by
  cases ty with
  | mermaid => exact ⟨"MERMAID:".data, by decide, by decide, by decide, by decide⟩
  | html => exact ⟨"HTML:".data, by decide, by decide, by decide, by decide⟩

theorem scanMatch_none_cons {pre : Str} {c : Char} {rest : Str}
    (h : ¬ pre <+: c :: rest) : scanMatch pre (c :: rest) = none := by
  unfold scanMatch
  rw [if_neg h]

theorem not_prefix_head {x c : Char} {p2 xs : Str} (hne : c ≠ x) :
    ¬ (x :: p2) <+: (c :: xs) := by
  rw [List.cons_prefix_cons]
  rintro ⟨rfl, -⟩
  exact hne rfl

theorem findAll_cons_skip {pre : Str} {c : Char} {rest : Str}
    (h : ¬ pre <+: c :: rest) : findAll pre (c :: rest) = findAll pre rest := by
  rw [findAll_cons, scanMatch_none_cons h]

theorem findAll_plain_pfx {pre p2 : Str} (hpre : pre = lbrace :: p2) :
    ∀ (s t : Str), lbrace ∉ s → findAll pre (s ++ t) = findAll pre t := by
  intro s
  induction s with
  | nil => intro t _; rfl
  | cons c s' ih =>
    intro t hs
    have hc : c ≠ lbrace := fun h => hs (h ▸ List.mem_cons_self c s')
    rw [List.cons_append, findAll_cons_skip (hpre ▸ not_prefix_head hc)]
    exact ih t (fun h => hs (List.mem_cons_of_mem c h))

theorem take3_eq_of_pfx {a b : Str} (h : a <+: b) (h3 : 3 ≤ a.length) :
    b.take 3 = a.take 3 := by
  obtain ⟨z, rfl⟩ := h
  rw [List.take_append_of_le_length h3]

theorem mermaid_not_prefix_html_slot (d u : Str) :
    ¬ mermaidPre <+: slotLit PType.html d ++ u := by
  intro h
  have h3 := take3_eq_of_pfx h (by decide)
  have h4 : (slotLit PType.html d ++ u).take 3 = htmlPre.take 3 := by
    show ((htmlPre ++ d ++ [rbrace, rbrace]) ++ u).take 3 = _
    rw [List.append_assoc, List.append_assoc,
      List.take_append_of_le_length (by decide)]
  rw [h4] at h3
  revert h3
  decide

theorem html_not_prefix_mermaid_slot (d u : Str) :
    ¬ htmlPre <+: slotLit PType.mermaid d ++ u := by
  intro h
  have h3 := take3_eq_of_pfx h (by decide)
  have h4 : (slotLit PType.mermaid d ++ u).take 3 = mermaidPre.take 3 := by
    show ((mermaidPre ++ d ++ [rbrace, rbrace]) ++ u).take 3 = _
    rw [List.append_assoc, List.append_assoc,
      List.take_append_of_le_length (by decide)]
  rw [h4] at h3
  revert h3
  decide

theorem wrongslot_not_pfx {ty ty' : PType} (hne : ty ≠ ty') (d u : Str) :
    ¬ preOf ty <+: slotLit ty' d ++ u := by
  cases ty <;> cases ty'
  · exact absurd rfl hne
  · exact mermaid_not_prefix_html_slot d u
  · exact html_not_prefix_mermaid_slot d u
  · exact absurd rfl hne

theorem desc_cancel {d0 : Str} (h0 : rbrace ∉ d0) :
    ∀ {d' : Str}, rbrace ∉ d' → ∀ {u v : Str},
      d0 ++ rbrace :: u <+: d' ++ rbrace :: v → d0 = d' := by
  induction d0 with
  | nil =>
    intro d' h' u v h
    cases d' with
    | nil => rfl
    | cons c t =>
      rw [List.nil_append, List.cons_append, List.cons_prefix_cons] at h
      exact absurd h.1.symm (fun hc => h' (hc ▸ List.mem_cons_self c t))
  | cons a t ih =>
    intro d' h' u v h
    cases d' with
    | nil =>
      rw [List.cons_append, List.nil_append, List.cons_prefix_cons] at h
      exact absurd h.1 (fun hc => h0 (hc ▸ List.mem_cons_self a t))
    | cons a' t' =>
      rw [List.cons_append, List.cons_append, List.cons_prefix_cons] at h
      obtain ⟨rfl, h2⟩ := h
      have ht : t = t' :=
        ih (fun hm => h0 (List.mem_cons_of_mem a hm))
          (fun hm => h' (List.mem_cons_of_mem a hm)) h2
      rw [ht]

theorem sameslot_prefix_eq {ty : PType} {d0 d' : Str} (h0 : rbrace ∉ d0)
    (h' : rbrace ∉ d') (u : Str)
    (h : slotLit ty d0 <+: slotLit ty d' ++ u) : d0 = d' := by
  unfold slotLit at h
  rw [List.append_assoc, List.append_assoc, List.append_assoc,
    List.prefix_append_right_inj] at h
  have h2 : d0 ++ rbrace :: [rbrace] <+: d' ++ rbrace :: ([rbrace] ++ u) := by
    simpa using h
  exact desc_cancel h0 h' h2

theorem strFind_cons_of_not_pfx {needle : Str} {c : Char} {xs : Str}
    (h : ¬ needle <+: c :: xs) :
    strFind needle (c :: xs) = (strFind needle xs).map (· + 1) := by
  conv_lhs => rw [strFind.eq_def]
  rw [if_neg h]

theorem replaceAll_of_strFind_none {needle repl hay : Str} (hne : needle ≠ [])
    (h : strFind needle hay = none) : replaceAll needle repl hay = hay := by
  rw [replaceAll_unfold hne, h]

theorem replaceAll_of_strFind_some {needle repl hay : Str} {p : Nat}
    (hne : needle ≠ []) (h : strFind needle hay = some p) :
    replaceAll needle repl hay =
      hay.take p ++ repl ++ replaceAll needle repl (hay.drop (p + needle.length)) := by
  rw [replaceAll_unfold hne, h]

theorem replaceAll_cons_skip {needle repl : Str} (hne : needle ≠ []) {c : Char}
    {xs : Str} (h : ¬ needle <+: c :: xs) :
    replaceAll needle repl (c :: xs) = c :: replaceAll needle repl xs := by
  cases hf : strFind needle xs with
  | none =>
    have hf2 : strFind needle (c :: xs) = none := by
      rw [strFind_cons_of_not_pfx h, hf]
      rfl
    rw [replaceAll_of_strFind_none hne hf2, replaceAll_of_strFind_none hne hf]
  | some p =>
    have hf2 : strFind needle (c :: xs) = some (p + 1) := by
      rw [strFind_cons_of_not_pfx h, hf]
      rfl
    rw [replaceAll_of_strFind_some hne hf2, replaceAll_of_strFind_some hne hf]
    rw [List.take_succ_cons,
      show p + 1 + needle.length = (p + needle.length) + 1 by omega,
      List.drop_succ_cons]
    simp [List.cons_append]

theorem replaceAll_here {needle repl : Str} (hne : needle ≠ []) (t : Str) :
    replaceAll needle repl (needle ++ t) = repl ++ replaceAll needle repl t := by
  have hf : strFind needle (needle ++ t) = some 0 := by
    conv_lhs => rw [strFind.eq_def]
    rw [if_pos (List.prefix_append _ _)]
  rw [replaceAll_of_strFind_some hne hf, List.take_zero, List.nil_append,
    Nat.zero_add, List.drop_left]

theorem replaceAll_plain_pfx {needle repl p2 : Str} (hne : needle ≠ [])
    (hhead : needle = lbrace :: p2) :
    ∀ (s t : Str), lbrace ∉ s →
      replaceAll needle repl (s ++ t) = s ++ replaceAll needle repl t := by
  intro s
  induction s with
  | nil => intro t _; rfl
  | cons c s' ih =>
    intro t hs
    have hc : c ≠ lbrace := fun h => hs (h ▸ List.mem_cons_self c s')
    rw [List.cons_append, replaceAll_cons_skip hne (hhead ▸ not_prefix_head hc),
      ih t (fun h => hs (List.mem_cons_of_mem c h)), List.cons_append]

theorem slotLit_ne_nil (ty : PType) (d : Str) : slotLit ty d ≠ [] := by
  unfold slotLit
  intro h
  have := congrArg List.length h
  simp [List.length_append] at this

theorem slotLit_head (ty : PType) (d : Str) :
    ∃ p2, slotLit ty d = lbrace :: p2 := by
  obtain ⟨p2, hp2, -, -, -⟩ := preOf_parts ty
  exact ⟨lbrace :: (p2 ++ d ++ [rbrace, rbrace]), by
    unfold slotLit
    rw [hp2]
    simp [List.append_assoc]⟩

/-- Replacing one placeholder skips a non-matching slot unchanged. -/
theorem replaceAll_slot_skip {ty ty' : PType} {d0 d' : Str} {repl : Str}
    (h0 : rbrace ∉ d0) (hsp : d' ≠ [] ∧ lbrace ∉ d' ∧ rbrace ∉ d')
    (hdiff : ty' ≠ ty ∨ d' ≠ d0) (t : Str) :
    replaceAll (slotLit ty d0) repl (slotLit ty' d' ++ t) =
      slotLit ty' d' ++ replaceAll (slotLit ty d0) repl t := by
  obtain ⟨hd'ne, hd'l, hd'r⟩ := hsp
  have hne := slotLit_ne_nil ty d0
  obtain ⟨p2, hp2, hp2l, hp2r, hp2ne⟩ := preOf_parts ty'
  have hnp0 : ¬ slotLit ty d0 <+: slotLit ty' d' ++ t := by
    rcases hdiff with hty | hd
    · intro h
      have hpre : preOf ty <+: slotLit ty' d' ++ t := by
        refine List.IsPrefix.trans ?_ h
        unfold slotLit
        rw [List.append_assoc]
        exact List.prefix_append _ _
      exact wrongslot_not_pfx (Ne.symm hty) d' t hpre
    · by_cases hty : ty' = ty
      · subst hty
        intro h
        exact hd ((sameslot_prefix_eq h0 hd'r t h).symm)
      · intro h
        have hpre : preOf ty <+: slotLit ty' d' ++ t := by
          refine List.IsPrefix.trans ?_ h
          unfold slotLit
          rw [List.append_assoc]
          exact List.prefix_append _ _
        exact wrongslot_not_pfx (Ne.symm hty) d' t hpre
  -- unfold the slot into `lbrace :: lbrace :: body` with a brace-free body
  have hslot : slotLit ty' d' = lbrace :: lbrace :: (p2 ++ d' ++ [rbrace, rbrace]) := by
    unfold slotLit
    rw [hp2]
    simp [List.append_assoc]
  obtain ⟨p2t, hp2t, hp2tl, hp2tr, hp2tne⟩ := preOf_parts ty
  have hslot0 : slotLit ty d0 = lbrace :: lbrace :: (p2t ++ d0 ++ [rbrace, rbrace]) := by
    unfold slotLit
    rw [hp2t]
    simp [List.append_assoc]
  have hq2 : slotLit ty d0 = lbrace :: (lbrace :: (p2t ++ d0 ++ [rbrace, rbrace])) :=
    hslot0
  have hstep1 : replaceAll (slotLit ty d0) repl (slotLit ty' d' ++ t) =
      lbrace :: replaceAll (slotLit ty d0) repl
        (lbrace :: (p2 ++ d' ++ [rbrace, rbrace]) ++ t) := by
    conv_lhs => rw [hslot]
    rw [List.cons_append]
    rw [replaceAll_cons_skip hne (by rw [← List.cons_append, ← hslot]; exact hnp0)]
  rw [hstep1]
  have hp2cons : ∃ h2 t2, p2 = h2 :: t2 ∧ h2 ≠ lbrace := by
    cases hp : p2 with
    | nil => exact absurd hp hp2ne
    | cons h2 t2 =>
      exact ⟨h2, t2, rfl, fun he => hp2l (by rw [hp, he]; exact List.mem_cons_self _ _)⟩
  obtain ⟨h2, t2, hp2eq, hh2⟩ := hp2cons
  have hstep2 : replaceAll (slotLit ty d0) repl
      (lbrace :: (p2 ++ d' ++ [rbrace, rbrace]) ++ t) =
      lbrace :: replaceAll (slotLit ty d0) repl ((p2 ++ d' ++ [rbrace, rbrace]) ++ t) := by
    rw [List.cons_append]
    apply replaceAll_cons_skip hne
    rw [hq2, List.cons_prefix_cons]
    rintro ⟨-, hq⟩
    rw [hp2eq] at hq
    simp only [List.cons_append, List.append_assoc, List.nil_append] at hq
    exact not_prefix_head hh2 hq
  rw [hstep2]
  have hbodyfree : lbrace ∉ p2 ++ d' ++ [rbrace, rbrace] := by
    intro hmem
    rcases List.mem_append.mp hmem with hmem2 | hmem2
    · rcases List.mem_append.mp hmem2 with hmem3 | hmem3
      · exact hp2l hmem3
      · exact hd'l hmem3
    · revert hmem2
      decide
  rw [replaceAll_plain_pfx hne hq2 _ t hbodyfree]
  rw [hslot]
  simp [List.cons_append, List.append_assoc]

theorem render_nil : render [] = [] := rfl

theorem render_cons (pc : Piece) (ps : List Piece) :
    render (pc :: ps) = renderPiece pc ++ render ps := by
  simp [render]

theorem strFind_nil_of_ne {needle : Str} (hne : needle ≠ []) :
    strFind needle [] = none := by
  rw [← not_occursIn_iff_strFind_none]
  rintro ⟨i, hi⟩
  rw [List.drop_nil] at hi
  exact hne (List.prefix_nil.mp hi)

/-- The effect of one assembler replacement on a decomposition: every slot
of the replaced type and description becomes the plain replacement text. -/
def substSlot (ty : PType) (d0 repl : Str) : Piece → Piece
  | Sum.inl s => Sum.inl s
  | Sum.inr (ty', d') =>
      if ty' = ty ∧ d' = d0 then Sum.inl repl else Sum.inr (ty', d')

theorem replaceAll_render {ty : PType} {d0 repl : Str}
    (hd0 : rbrace ∉ d0) :
    ∀ ps : List Piece, (∀ pc ∈ ps, ScanPiece pc) →
      replaceAll (slotLit ty d0) repl (render ps) =
        render (ps.map (substSlot ty d0 repl)) := by
  intro ps
  induction ps with
  | nil =>
    intro _
    exact replaceAll_of_strFind_none (slotLit_ne_nil ty d0)
      (strFind_nil_of_ne (slotLit_ne_nil ty d0))
  | cons pc rest ih =>
    intro hgood
    have hrest := fun pc hm => hgood pc (List.mem_cons_of_mem _ hm)
    have hpc := hgood pc (List.mem_cons_self _ _)
    rw [render_cons, List.map_cons, render_cons]
    cases pc with
    | inl s =>
      have hs : lbrace ∉ s := hpc
      obtain ⟨q2, hq2⟩ := slotLit_head ty d0
      show replaceAll (slotLit ty d0) repl (s ++ render rest) =
        s ++ render (rest.map (substSlot ty d0 repl))
      rw [replaceAll_plain_pfx (slotLit_ne_nil ty d0) hq2 _ _ hs, ih hrest]
    | inr pr =>
      obtain ⟨ty', d'⟩ := pr
      by_cases hmatch : ty' = ty ∧ d' = d0
      · obtain ⟨rfl, rfl⟩ := hmatch
        have hsub : substSlot ty' d' repl (Sum.inr (ty', d')) = Sum.inl repl := by
          dsimp only [substSlot]
          rw [if_pos ⟨rfl, rfl⟩]
        rw [hsub]
        show replaceAll (slotLit ty' d') repl (slotLit ty' d' ++ render rest) =
          repl ++ render (rest.map (substSlot ty' d' repl))
        rw [replaceAll_here (slotLit_ne_nil ty' d') (render rest), ih hrest]
      · have hdiff : ty' ≠ ty ∨ d' ≠ d0 := by
          by_cases hty : ty' = ty
          · right
            exact fun hd => hmatch ⟨hty, hd⟩
          · left
            exact hty
        have hsub : substSlot ty d0 repl (Sum.inr (ty', d')) = Sum.inr (ty', d') := by
          dsimp only [substSlot]
          rw [if_neg hmatch]
        rw [hsub]
        show replaceAll (slotLit ty d0) repl (slotLit ty' d' ++ render rest) =
          slotLit ty' d' ++ render (rest.map (substSlot ty d0 repl))
        rw [replaceAll_slot_skip hd0 hpc hdiff (render rest), ih hrest]

/-- The slot description selected by `findAll` for a decomposition. -/
def slotDescOf (ty : PType) : Piece → Option Str
  | Sum.inl _ => none
  | Sum.inr (ty', d) => if ty' = ty then some d else none

theorem findAll_eq_cons_of_scan {pre s d : Str} {len : Nat}
    (hscan : scanMatch pre s = some (d, len)) (hs : s ≠ []) :
    findAll pre s = d :: findAll pre (s.drop len) := by
  cases s with
  | nil => exact absurd rfl hs
  | cons c rest =>
    rw [findAll_cons, hscan]
    have hlen : len = pre.length + d.length + 2 := (scanMatch_some_imp hscan).2
    have h1 : (c :: rest).drop len = rest.drop (len - 1) := by
      rw [show len = (len - 1) + 1 by omega, List.drop_succ_cons]
      congr 1
    rw [h1]

theorem findAll_slot_skip {ty ty' : PType} (hne : ty ≠ ty') {d' : Str}
    (hsp : d' ≠ [] ∧ lbrace ∉ d' ∧ rbrace ∉ d') (t : Str) :
    findAll (preOf ty) (slotLit ty' d' ++ t) = findAll (preOf ty) t := by
  obtain ⟨hd'ne, hd'l, hd'r⟩ := hsp
  obtain ⟨p2, hp2, hp2l, hp2r, hp2ne⟩ := preOf_parts ty'
  obtain ⟨p2t, hp2t, hp2tl, hp2tr, hp2tne⟩ := preOf_parts ty
  have hslot : slotLit ty' d' = lbrace :: lbrace :: (p2 ++ d' ++ [rbrace, rbrace]) := by
    unfold slotLit
    rw [hp2]
    simp [List.append_assoc]
  have hp2cons : ∃ h2 t2, p2 = h2 :: t2 ∧ h2 ≠ lbrace := by
    cases hp : p2 with
    | nil => exact absurd hp hp2ne
    | cons h2 t2 =>
      exact ⟨h2, t2, rfl, fun he => hp2l (by rw [hp, he]; exact List.mem_cons_self _ _)⟩
  obtain ⟨h2, t2, hp2eq, hh2⟩ := hp2cons
  have hstep1 : findAll (preOf ty) (slotLit ty' d' ++ t) =
      findAll (preOf ty) (lbrace :: (p2 ++ d' ++ [rbrace, rbrace]) ++ t) := by
    conv_lhs => rw [hslot]
    rw [List.cons_append]
    exact findAll_cons_skip (by rw [← List.cons_append, ← hslot]
                                exact wrongslot_not_pfx hne d' t)
  rw [hstep1]
  have hstep2 : findAll (preOf ty) (lbrace :: (p2 ++ d' ++ [rbrace, rbrace]) ++ t) =
      findAll (preOf ty) ((p2 ++ d' ++ [rbrace, rbrace]) ++ t) := by
    rw [List.cons_append]
    apply findAll_cons_skip
    rw [hp2t, List.cons_prefix_cons]
    rintro ⟨-, hq⟩
    rw [hp2eq] at hq
    simp only [List.cons_append, List.append_assoc, List.nil_append] at hq
    exact not_prefix_head hh2 hq
  rw [hstep2]
  have hbodyfree : lbrace ∉ p2 ++ d' ++ [rbrace, rbrace] := by
    intro hmem
    rcases List.mem_append.mp hmem with hmem2 | hmem2
    · rcases List.mem_append.mp hmem2 with hmem3 | hmem3
      · exact hp2l hmem3
      · exact hd'l hmem3
    · revert hmem2
      decide
  exact findAll_plain_pfx hp2t _ t hbodyfree

theorem findAll_render (ty : PType) :
    ∀ ps : List Piece, (∀ pc ∈ ps, ScanPiece pc) →
      findAll (preOf ty) (render ps) = ps.filterMap (slotDescOf ty) := by
  intro ps
  induction ps with
  | nil => intro _; rfl
  | cons pc rest ih =>
    intro hgood
    have hrest := fun pc hm => hgood pc (List.mem_cons_of_mem _ hm)
    have hpc := hgood pc (List.mem_cons_self _ _)
    rw [render_cons, List.filterMap_cons]
    cases pc with
    | inl s =>
      have hs : lbrace ∉ s := hpc
      obtain ⟨p2t, hp2t, -, -, -⟩ := preOf_parts ty
      have hp2t2 : preOf ty = lbrace :: (lbrace :: p2t) := hp2t
      show findAll (preOf ty) (s ++ render rest) = _
      rw [findAll_plain_pfx hp2t2 _ _ hs, ih hrest]
      rfl
    | inr pr =>
      obtain ⟨ty', d'⟩ := pr
      obtain ⟨hd'ne, hd'l, hd'r⟩ := hpc
      by_cases hty : ty' = ty
      · subst hty
        have hmatch : MatchAt (preOf ty') (slotLit ty' d' ++ render rest) 0 d' := by
          refine ⟨hd'ne, hd'r, ?_⟩
          rw [List.drop_zero]
          exact ⟨render rest, by unfold slotLit; rfl⟩
        have hscan := matchAt_zero_imp_scan hmatch
        have hlen : (preOf ty').length + d'.length + 2 = (slotLit ty' d').length := by
          unfold slotLit
          simp only [List.length_append, List.length_cons, List.length_nil]
        show findAll (preOf ty') (slotLit ty' d' ++ render rest) = _
        rw [findAll_eq_cons_of_scan hscan (by
          intro hcontra
          have := congrArg List.length hcontra
          unfold slotLit at this
          simp [List.length_append] at this)]
        rw [hlen, List.drop_left, ih hrest]
        have hsd : slotDescOf ty' (Sum.inr (ty', d')) = some d' := by
          dsimp only [slotDescOf]
          rw [if_pos rfl]
        rw [hsd]
      · show findAll (preOf ty) (slotLit ty' d' ++ render rest) = _
        rw [findAll_slot_skip (fun h => hty h.symm) ⟨hd'ne, hd'l, hd'r⟩ (render rest),
          ih hrest]
        have : slotDescOf ty (Sum.inr (ty', d')) = none := by
          dsimp only [slotDescOf]
          rw [if_neg hty]
        rw [this]

/-- The per-placeholder piece transformation performed by one iteration of
the assembler's replacement loop. -/
def phSubstFn (ty : PType) (codes : List (String × Str)) (ph : Placeholder) :
    Piece → Piece :=
  match alookup ph.id codes with
  | some code => substSlot ty ph.description (fenceOf ty code)
  | none => id

theorem alookup_mem {k : String} {codes : List (String × Str)} {v : Str}
    (h : alookup k codes = some v) : ∃ k2, (k2, v) ∈ codes := by
  unfold alookup at h
  rw [Option.map_eq_some'] at h
  obtain ⟨⟨k2, v2⟩, hf, hv⟩ := h
  cases hv
  exact ⟨k2, List.mem_of_find?_eq_some hf⟩

theorem fence_lbrace_free {ty : PType} {code : Str} (h : lbrace ∉ code) :
    lbrace ∉ fenceOf ty code := by
  intro hmem
  cases ty <;>
  · rcases List.mem_append.mp hmem with h2 | h2
    · rcases List.mem_append.mp h2 with h3 | h3
      · revert h3
        decide
      · exact h h3
    · revert h2
      decide

theorem scanPiece_subst {ty : PType} {d0 repl : Str} (hrepl : lbrace ∉ repl)
    {pc : Piece} (h : ScanPiece pc) : ScanPiece (substSlot ty d0 repl pc) := by
  cases pc with
  | inl s => exact h
  | inr pr =>
    obtain ⟨ty', d'⟩ := pr
    dsimp only [substSlot]
    split
    · exact hrepl
    · exact h

theorem scanPiece_phSubst {ty : PType} {codes : List (String × Str)}
    {ph : Placeholder} (hcodes : ∀ p ∈ codes, lbrace ∉ p.2)
    {pc : Piece} (h : ScanPiece pc) : ScanPiece (phSubstFn ty codes ph pc) := by
  unfold phSubstFn
  cases halk : alookup ph.id codes with
  | none => exact h
  | some code =>
    obtain ⟨k2, hmem⟩ := alookup_mem halk
    exact scanPiece_subst (fence_lbrace_free (hcodes (k2, code) hmem)) h

/-- The assembler replacement loop, run on a decomposed text with full
artifact coverage, performs exactly the corresponding slot substitutions
and reports no error. -/
theorem fold_assemble {ty : PType} {codes : List (String × Str)} :
    ∀ (phs : List Placeholder) (ps : List Piece) (errs : List ErrItem),
      (∀ pc ∈ ps, ScanPiece pc) →
      (∀ ph ∈ phs, (alookup ph.id codes).isSome ∧ rbrace ∉ ph.description) →
      (∀ p ∈ codes, lbrace ∉ p.2) →
      phs.foldl (assembleStep ty codes) (render ps, errs) =
        (render (phs.foldl (fun acc ph => acc.map (phSubstFn ty codes ph)) ps), errs) := by
  intro phs
  induction phs with
  | nil => intro ps errs _ _ _; rfl
  | cons ph rest ih =>
    intro ps errs hps hphs hcodes
    obtain ⟨hsome, hrb⟩ := hphs ph (List.mem_cons_self _ _)
    rw [List.foldl_cons, List.foldl_cons]
    cases halk : alookup ph.id codes with
    | none =>
      rw [halk] at hsome
      simp at hsome
    | some code =>
      have hstep : assembleStep ty codes (render ps, errs) ph =
          (render (ps.map (phSubstFn ty codes ph)), errs) := by
        unfold assembleStep
        rw [halk]
        dsimp only
        rw [replaceAll_render hrb ps hps]
        have : ps.map (phSubstFn ty codes ph) =
            ps.map (substSlot ty ph.description (fenceOf ty code)) := by
          apply List.map_congr_left
          intro pc _
          unfold phSubstFn
          rw [halk]
        rw [this]
      rw [hstep]
      exact ih _ errs
        (fun pc hm => by
          obtain ⟨pc0, hpc0, rfl⟩ := List.mem_map.mp hm
          exact scanPiece_phSubst hcodes (hps pc0 hpc0))
        (fun p hm => hphs p (List.mem_cons_of_mem _ hm)) hcodes

/-- The cumulative effect of a placeholder list on one piece. -/
def pieceApply (ty : PType) (codes : List (String × Str))
    (phs : List Placeholder) (pc : Piece) : Piece :=
  phs.foldl (fun pc ph => phSubstFn ty codes ph pc) pc

theorem foldl_map_pieces (ty : PType) (codes : List (String × Str)) :
    ∀ (phs : List Placeholder) (ps : List Piece),
      phs.foldl (fun acc ph => acc.map (phSubstFn ty codes ph)) ps =
        ps.map (pieceApply ty codes phs) := by
  intro phs
  induction phs with
  | nil =>
    intro ps
    show ps = ps.map (fun pc => pc)
    rw [List.map_id']
  | cons ph rest ih =>
    intro ps
    rw [List.foldl_cons, ih, List.map_map]
    rfl

theorem pieceApply_inl (ty : PType) (codes : List (String × Str))
    (phs : List Placeholder) (s : Str) :
    pieceApply ty codes phs (Sum.inl s) = Sum.inl s := by
  induction phs with
  | nil => rfl
  | cons ph rest ih =>
    unfold pieceApply
    rw [List.foldl_cons]
    have hstep : phSubstFn ty codes ph (Sum.inl s) = Sum.inl s := by
      unfold phSubstFn
      cases alookup ph.id codes <;> rfl
    rw [hstep]
    exact ih

theorem pieceApply_slot_other {ty ty0 : PType} (hne : ty0 ≠ ty)
    (codes : List (String × Str)) (phs : List Placeholder) (d : Str) :
    pieceApply ty codes phs (Sum.inr (ty0, d)) = Sum.inr (ty0, d) := by
  induction phs with
  | nil => rfl
  | cons ph rest ih =>
    unfold pieceApply
    rw [List.foldl_cons]
    have hstep : phSubstFn ty codes ph (Sum.inr (ty0, d)) = Sum.inr (ty0, d) := by
      unfold phSubstFn
      cases alookup ph.id codes with
      | none => rfl
      | some code =>
        dsimp only [substSlot]
        rw [if_neg (fun hand => hne hand.1)]
    rw [hstep]
    exact ih

theorem pieceApply_slot_covered {ty : PType} {codes : List (String × Str)} :
    ∀ {phs : List Placeholder} {d : Str},
      (∃ ph ∈ phs, ph.description = d ∧ (alookup ph.id codes).isSome) →
      ∃ code k2, (k2, code) ∈ codes ∧
        pieceApply ty codes phs (Sum.inr (ty, d)) = Sum.inl (fenceOf ty code) := by
  intro phs
  induction phs with
  | nil =>
    rintro d ⟨ph, hmem, -⟩
    exact absurd hmem (List.not_mem_nil ph)
  | cons ph rest ih =>
    rintro d ⟨ph0, hmem, hdesc, hsome⟩
    by_cases hcase : ph.description = d ∧ (alookup ph.id codes).isSome
    · obtain ⟨hdesc2, hsome2⟩ := hcase
      rw [Option.isSome_iff_exists] at hsome2
      obtain ⟨code, hcode⟩ := hsome2
      refine ⟨code, ?_⟩
      obtain ⟨k2, hk2⟩ := alookup_mem hcode
      refine ⟨k2, hk2, ?_⟩
      unfold pieceApply
      rw [List.foldl_cons]
      have hstep : phSubstFn ty codes ph (Sum.inr (ty, d)) = Sum.inl (fenceOf ty code) := by
        unfold phSubstFn
        rw [hcode]
        dsimp only [substSlot]
        rw [if_pos ⟨rfl, hdesc2.symm⟩]
      rw [hstep]
      exact pieceApply_inl ty codes rest (fenceOf ty code)
    · have hrest : ∃ ph2 ∈ rest, ph2.description = d ∧ (alookup ph2.id codes).isSome := by
        rcases List.mem_cons.mp hmem with rfl | hmem2
        · exact absurd ⟨hdesc, hsome⟩ hcase
        · exact ⟨ph0, hmem2, hdesc, hsome⟩
      obtain ⟨code, k2, hk2, happ⟩ := ih hrest
      refine ⟨code, k2, hk2, ?_⟩
      unfold pieceApply
      rw [List.foldl_cons]
      have hstep : phSubstFn ty codes ph (Sum.inr (ty, d)) = Sum.inr (ty, d) := by
        unfold phSubstFn
        cases halk : alookup ph.id codes with
        | none => rfl
        | some code2 =>
          dsimp only [substSlot]
          rw [if_neg]
          rintro ⟨-, hdeq⟩
          exact hcase ⟨hdeq.symm, by rw [halk]; rfl⟩
      rw [hstep]
      exact happ

/-- Full side conditions for a decomposed draft: plain fragments free of
left braces and backticks, descriptions nonempty, brace-free and
whitespace-stripped. -/
def GoodPiece : Piece → Prop
  | Sum.inl s => lbrace ∉ s ∧ btick ∉ s
  | Sum.inr (_, d) => d ≠ [] ∧ lbrace ∉ d ∧ rbrace ∉ d ∧ pyStrip d = d

instance : DecidablePred GoodPiece := by
  intro pc
  cases pc with
  | inl s => exact (inferInstance : Decidable (lbrace ∉ s ∧ btick ∉ s))
  | inr pr =>
    exact (inferInstance :
      Decidable (pr.2 ≠ [] ∧ lbrace ∉ pr.2 ∧ rbrace ∉ pr.2 ∧ pyStrip pr.2 = pr.2))

theorem goodPiece_scan {pc : Piece} (h : GoodPiece pc) : ScanPiece pc := by
  cases pc with
  | inl s => exact h.1
  | inr pr => exact ⟨h.1, h.2.1, h.2.2.1⟩

theorem mapIdx_forall_mem {α β : Type} (P : β → Prop) :
    ∀ (l : List α) (f : Nat → α → β),
      (∀ i a, a ∈ l → P (f i a)) → ∀ b ∈ l.mapIdx f, P b := by
  intro l
  induction l with
  | nil =>
    intro f _ b hb
    simp at hb
  | cons a t ih =>
    intro f h b hb
    rw [List.mapIdx_cons] at hb
    rcases List.mem_cons.mp hb with rfl | hb2
    · exact h 0 a (List.mem_cons_self _ _)
    · exact ih (fun i x => f (i + 1) x)
        (fun i x hx => h (i + 1) x (List.mem_cons_of_mem _ hx)) b hb2

theorem mapIdx_exists_mem {α β : Type} :
    ∀ (l : List α) (f : Nat → α → β) (a : α), a ∈ l →
      ∃ i, f i a ∈ l.mapIdx f := by
  intro l
  induction l with
  | nil =>
    intro f a ha
    simp at ha
  | cons x t ih =>
    intro f a ha
    rw [List.mapIdx_cons]
    rcases List.mem_cons.mp ha with rfl | ha2
    · exact ⟨0, List.mem_cons_self _ _⟩
    · obtain ⟨i, hi⟩ := ih (fun i x => f (i + 1) x) a ha2
      exact ⟨i + 1, List.mem_cons_of_mem _ hi⟩

theorem slotDescOf_some {ty : PType} {pc : Piece} {d : Str}
    (h : slotDescOf ty pc = some d) : pc = Sum.inr (ty, d) := by
  cases pc with
  | inl s => simp [slotDescOf] at h
  | inr pr =>
    obtain ⟨ty', d'⟩ := pr
    dsimp only [slotDescOf] at h
    split at h
    · rename_i hty
      cases h
      rw [hty]
    · simp at h

theorem lbrace_not_in_render {ps : List Piece}
    (h : ∀ pc ∈ ps, ∃ s, pc = Sum.inl s ∧ lbrace ∉ s) :
    lbrace ∉ render ps := by
  intro hmem
  unfold render at hmem
  rw [List.mem_flatten] at hmem
  obtain ⟨l, hl, hcl⟩ := hmem
  rw [List.mem_map] at hl
  obtain ⟨pc, hpc, rfl⟩ := hl
  obtain ⟨s, rfl, hs⟩ := h pc hpc
  exact hs hcl

theorem findAll_eq_nil_of_no_lbrace {pre p2 s : Str} (hpre : pre = lbrace :: p2)
    (h : lbrace ∉ s) : findAll pre s = [] := by
  have h2 := findAll_plain_pfx hpre s [] h
  rw [List.append_nil] at h2
  rw [h2]
  rfl

theorem not_occursIn_of_lbrace_free {needle s : Str} (hn : lbrace ∈ needle)
    (h : lbrace ∉ s) : ¬ OccursIn needle s := by
  rintro ⟨i, hi⟩
  obtain ⟨tail, htail⟩ := hi
  apply h
  have hmem : lbrace ∈ s.drop i := by
    rw [← htail]
    exact List.mem_append.mpr (Or.inl hn)
  exact List.mem_of_mem_drop hmem

theorem count_btick_fence {ty : PType} {code : Str} (h : btick ∉ code) :
    (fenceOf ty code).count btick = 6 := by
  cases ty <;>
  · show List.count btick (_ ++ code ++ _) = 6
    rw [List.count_append, List.count_append,
      List.count_eq_zero_of_not_mem h]
    rfl

theorem count_render_cons (pc : Piece) (ps : List Piece) :
    (render (pc :: ps)).count btick =
      (renderPiece pc).count btick + (render ps).count btick := by
  rw [render_cons, List.count_append]

theorem scanPiece_pieceApply {ty : PType} {codes : List (String × Str)}
    (hcodes : ∀ p ∈ codes, lbrace ∉ p.2) :
    ∀ (phs : List Placeholder) {pc : Piece}, ScanPiece pc →
      ScanPiece (pieceApply ty codes phs pc) := by
  intro phs
  induction phs with
  | nil => intro pc h; exact h
  | cons ph rest ih =>
    intro pc h
    unfold pieceApply
    rw [List.foldl_cons]
    exact ih (scanPiece_phSubst hcodes h)

theorem final_pieces_count {F : Piece → Piece} :
    ∀ ps : List Piece,
      (∀ pc ∈ ps,
        (∀ s1, pc = Sum.inl s1 → F pc = Sum.inl s1 ∧ btick ∉ s1) ∧
        (∀ ty d, pc = Sum.inr (ty, d) →
          ∃ code, F pc = Sum.inl (fenceOf ty code) ∧ btick ∉ code)) →
      (render (ps.map F)).count btick =
        6 * ((ps.filterMap (slotDescOf PType.mermaid)).length +
             (ps.filterMap (slotDescOf PType.html)).length) := by
  intro ps
  induction ps with
  | nil => intro _; rfl
  | cons pc rest ih =>
    intro h
    have hrest := fun pc hm => h pc (List.mem_cons_of_mem _ hm)
    have hpc := h pc (List.mem_cons_self _ _)
    rw [List.map_cons, count_render_cons, List.filterMap_cons, List.filterMap_cons,
      ih hrest]
    cases pc with
    | inl s1 =>
      obtain ⟨heq, hbt⟩ := hpc.1 s1 rfl
      rw [heq]
      show s1.count btick + _ = _
      rw [List.count_eq_zero_of_not_mem hbt]
      dsimp only [slotDescOf]
      omega
    | inr pr =>
      obtain ⟨ty, d⟩ := pr
      obtain ⟨code, heq, hbt⟩ := hpc.2 ty d rfl
      rw [heq]
      show (fenceOf ty code).count btick + _ = _
      rw [count_btick_fence hbt]
      cases ty with
      | mermaid =>
        have h1 : slotDescOf PType.mermaid (Sum.inr (PType.mermaid, d)) = some d := by
          dsimp only [slotDescOf]
          rw [if_pos rfl]
        have h2 : slotDescOf PType.html (Sum.inr (PType.mermaid, d)) = none := by
          dsimp only [slotDescOf]
          rw [if_neg (by intro h; cases h)]
        rw [h1, h2]
        show 6 + 6 * ((rest.filterMap (slotDescOf PType.mermaid)).length +
          (rest.filterMap (slotDescOf PType.html)).length) =
          6 * ((rest.filterMap (slotDescOf PType.mermaid)).length + 1 +
            (rest.filterMap (slotDescOf PType.html)).length)
        omega
      | html =>
        have h1 : slotDescOf PType.mermaid (Sum.inr (PType.html, d)) = none := by
          dsimp only [slotDescOf]
          rw [if_neg (by intro h; cases h)]
        have h2 : slotDescOf PType.html (Sum.inr (PType.html, d)) = some d := by
          dsimp only [slotDescOf]
          rw [if_pos rfl]
        rw [h1, h2]
        show 6 + 6 * ((rest.filterMap (slotDescOf PType.mermaid)).length +
          (rest.filterMap (slotDescOf PType.html)).length) =
          6 * ((rest.filterMap (slotDescOf PType.mermaid)).length +
            ((rest.filterMap (slotDescOf PType.html)).length + 1))
        omega

theorem length_mapIdx {α β : Type} :
    ∀ (l : List α) (f : Nat → α → β), (l.mapIdx f).length = l.length := by
  intro l
  induction l with
  | nil => intro f; rfl
  | cons a t ih =>
    intro f
    rw [List.mapIdx_cons, List.length_cons, List.length_cons, ih]

theorem mermaidPre_shape : mermaidPre = lbrace :: "\x7bMERMAID:".data := by decide

theorem htmlPre_shape : htmlPre = lbrace :: "\x7bHTML:".data := by decide

/-- C2 (amended): for every state whose nonempty draft decomposes into
brace- and backtick-free plain text interleaved with well-formed
placeholder slots (descriptions nonempty, brace-free, whitespace-stripped),
whose placeholder lists are the writer's extraction of that draft, whose
artifact maps cover every placeholder id, and whose artifact codes contain
no left brace and no backtick, the assembler returns `node_status =
success` with no error, a final document free of any `\x7b\x7bMERMAID:` /
`\x7b\x7bHTML:` occurrence, and exactly N inserted fenced blocks for the N
placeholders (6·N backticks in a draft that had none). -/
theorem c2_assembler_success (s : WState) (ps0 : List Piece)
    (hdecomp : s.draft_md = render ps0)
    (hne : s.draft_md ≠ [])
    (hgood : ∀ pc ∈ ps0, GoodPiece pc)
    (hphm : s.mermaid_placeholders = (extractPlaceholders s.draft_md).1)
    (hphh : s.html_placeholders = (extractPlaceholders s.draft_md).2)
    (hcovm : ∀ ph ∈ s.mermaid_placeholders, (alookup ph.id s.mermaid_codes).isSome)
    (hcovh : ∀ ph ∈ s.html_placeholders, (alookup ph.id s.html_codes).isSome)
    (hcodesm : ∀ p ∈ s.mermaid_codes, lbrace ∉ p.2 ∧ btick ∉ p.2)
    (hcodesh : ∀ p ∈ s.html_codes, lbrace ∉ p.2 ∧ btick ∉ p.2) :
    (assemblerRun s).node_status = "success" ∧
    (assemblerRun s).error = none ∧
    ¬ OccursIn mermaidPre (assemblerRun s).final_md ∧
    ¬ OccursIn htmlPre (assemblerRun s).final_md ∧
    (assemblerRun s).final_md.count btick =
      6 * (s.mermaid_placeholders.length + s.html_placeholders.length) := by
  have hscan : ∀ pc ∈ ps0, ScanPiece pc := fun pc h => goodPiece_scan (hgood pc h)
  have hcodesmL : ∀ p ∈ s.mermaid_codes, lbrace ∉ p.2 := fun p h => (hcodesm p h).1
  have hcodeshL : ∀ p ∈ s.html_codes, lbrace ∉ p.2 := fun p h => (hcodesh p h).1
  have hfm : findAll mermaidPre s.draft_md = ps0.filterMap (slotDescOf PType.mermaid) := by
    rw [hdecomp]
    exact findAll_render PType.mermaid ps0 hscan
  have hfh : findAll htmlPre s.draft_md = ps0.filterMap (slotDescOf PType.html) := by
    rw [hdecomp]
    exact findAll_render PType.html ps0 hscan
  have hdescM : ∀ d ∈ ps0.filterMap (slotDescOf PType.mermaid),
      d ≠ [] ∧ lbrace ∉ d ∧ rbrace ∉ d ∧ pyStrip d = d := by
    intro d hd
    obtain ⟨pc, hpc, hval⟩ := List.mem_filterMap.mp hd
    have hpceq := slotDescOf_some hval
    subst hpceq
    exact hgood _ hpc
  have hdescH : ∀ d ∈ ps0.filterMap (slotDescOf PType.html),
      d ≠ [] ∧ lbrace ∉ d ∧ rbrace ∉ d ∧ pyStrip d = d := by
    intro d hd
    obtain ⟨pc, hpc, hval⟩ := List.mem_filterMap.mp hd
    have hpceq := slotDescOf_some hval
    subst hpceq
    exact hgood _ hpc
  have hphmD : ∀ ph ∈ s.mermaid_placeholders, rbrace ∉ ph.description := by
    rw [hphm]
    show ∀ ph ∈ (findAll mermaidPre s.draft_md).mapIdx
      (fun i d => (⟨"mermaid_" ++ toString (i + 1), pyStrip d⟩ : Placeholder)),
      rbrace ∉ ph.description
    apply mapIdx_forall_mem (fun (ph : Placeholder) => rbrace ∉ ph.description)
    intro i d hd
    rw [hfm] at hd
    obtain ⟨-, -, hr, hstrip⟩ := hdescM d hd
    show rbrace ∉ pyStrip d
    rw [hstrip]
    exact hr
  have hphhD : ∀ ph ∈ s.html_placeholders, rbrace ∉ ph.description := by
    rw [hphh]
    show ∀ ph ∈ (findAll htmlPre s.draft_md).mapIdx
      (fun i d => (⟨"html_" ++ toString (i + 1), pyStrip d⟩ : Placeholder)),
      rbrace ∉ ph.description
    apply mapIdx_forall_mem (fun (ph : Placeholder) => rbrace ∉ ph.description)
    intro i d hd
    rw [hfh] at hd
    obtain ⟨-, -, hr, hstrip⟩ := hdescH d hd
    show rbrace ∉ pyStrip d
    rw [hstrip]
    exact hr
  have hphmP : ∀ ph ∈ s.mermaid_placeholders,
      (alookup ph.id s.mermaid_codes).isSome ∧ rbrace ∉ ph.description :=
    fun ph h => ⟨hcovm ph h, hphmD ph h⟩
  have hphhP : ∀ ph ∈ s.html_placeholders,
      (alookup ph.id s.html_codes).isSome ∧ rbrace ∉ ph.description :=
    fun ph h => ⟨hcovh ph h, hphhD ph h⟩
  have hcovSlotM : ∀ d : Str, Sum.inr (PType.mermaid, d) ∈ ps0 →
      ∃ ph ∈ s.mermaid_placeholders,
        ph.description = d ∧ (alookup ph.id s.mermaid_codes).isSome := by
    intro d hmem
    have hd : d ∈ ps0.filterMap (slotDescOf PType.mermaid) :=
      List.mem_filterMap.mpr ⟨_, hmem, by dsimp only [slotDescOf]; rw [if_pos rfl]⟩
    have hstrip := (hdescM d hd).2.2.2
    have hd2 : d ∈ findAll mermaidPre s.draft_md := by
      rw [hfm]
      exact hd
    obtain ⟨i, hi⟩ := mapIdx_exists_mem (findAll mermaidPre s.draft_md)
      (fun i d => (⟨"mermaid_" ++ toString (i + 1), pyStrip d⟩ : Placeholder)) d hd2
    have hmem2 : (⟨"mermaid_" ++ toString (i + 1), pyStrip d⟩ : Placeholder) ∈
        s.mermaid_placeholders := by
      rw [hphm]
      exact hi
    exact ⟨_, hmem2, hstrip, hcovm _ hmem2⟩
  have hcovSlotH : ∀ d : Str, Sum.inr (PType.html, d) ∈ ps0 →
      ∃ ph ∈ s.html_placeholders,
        ph.description = d ∧ (alookup ph.id s.html_codes).isSome := by
    intro d hmem
    have hd : d ∈ ps0.filterMap (slotDescOf PType.html) :=
      List.mem_filterMap.mpr ⟨_, hmem, by dsimp only [slotDescOf]; rw [if_pos rfl]⟩
    have hstrip := (hdescH d hd).2.2.2
    have hd2 : d ∈ findAll htmlPre s.draft_md := by
      rw [hfh]
      exact hd
    obtain ⟨i, hi⟩ := mapIdx_exists_mem (findAll htmlPre s.draft_md)
      (fun i d => (⟨"html_" ++ toString (i + 1), pyStrip d⟩ : Placeholder)) d hd2
    have hmem2 : (⟨"html_" ++ toString (i + 1), pyStrip d⟩ : Placeholder) ∈
        s.html_placeholders := by
      rw [hphh]
      exact hi
    exact ⟨_, hmem2, hstrip, hcovh _ hmem2⟩
  -- the two replacement folds as piece maps
  have e1 : s.mermaid_placeholders.foldl
      (assembleStep PType.mermaid s.mermaid_codes) (s.draft_md, []) =
      (render (ps0.map
        (pieceApply PType.mermaid s.mermaid_codes s.mermaid_placeholders)), []) := by
    rw [hdecomp, fold_assemble s.mermaid_placeholders ps0 [] hscan hphmP hcodesmL,
      foldl_map_pieces]
  have hscan1 : ∀ pc ∈ ps0.map
      (pieceApply PType.mermaid s.mermaid_codes s.mermaid_placeholders), ScanPiece pc := by
    intro pc hm
    obtain ⟨pc0, hpc0, rfl⟩ := List.mem_map.mp hm
    exact scanPiece_pieceApply hcodesmL _ (hscan pc0 hpc0)
  have e2 : s.html_placeholders.foldl (assembleStep PType.html s.html_codes)
      (render (ps0.map
        (pieceApply PType.mermaid s.mermaid_codes s.mermaid_placeholders)), []) =
      (render ((ps0.map
        (pieceApply PType.mermaid s.mermaid_codes s.mermaid_placeholders)).map
        (pieceApply PType.html s.html_codes s.html_placeholders)), []) := by
    rw [fold_assemble s.html_placeholders _ [] hscan1 hphhP hcodeshL, foldl_map_pieces]
  -- pointwise shape of the fully substituted pieces
  have hpoint : ∀ pc ∈ ps0,
      (∀ s1, pc = Sum.inl s1 →
        pieceApply PType.html s.html_codes s.html_placeholders
          (pieceApply PType.mermaid s.mermaid_codes s.mermaid_placeholders pc) =
            Sum.inl s1 ∧ btick ∉ s1 ∧ lbrace ∉ s1) ∧
      (∀ ty d, pc = Sum.inr (ty, d) →
        ∃ code,
          pieceApply PType.html s.html_codes s.html_placeholders
            (pieceApply PType.mermaid s.mermaid_codes s.mermaid_placeholders pc) =
              Sum.inl (fenceOf ty code) ∧ btick ∉ code ∧ lbrace ∉ code) := by
    intro pc hm
    constructor
    · rintro s1 rfl
      refine ⟨?_, (hgood _ hm).2, (hgood _ hm).1⟩
      rw [pieceApply_inl, pieceApply_inl]
    · rintro ty d rfl
      cases ty with
      | mermaid =>
        obtain ⟨code, k2, hk2, happ⟩ :=
          pieceApply_slot_covered (hcovSlotM d hm)
        refine ⟨code, ?_, (hcodesm _ hk2).2, (hcodesm _ hk2).1⟩
        rw [happ, pieceApply_inl]
      | html =>
        have hother : pieceApply PType.mermaid s.mermaid_codes s.mermaid_placeholders
            (Sum.inr (PType.html, d)) = Sum.inr (PType.html, d) :=
          pieceApply_slot_other (by intro h; cases h) s.mermaid_codes
            s.mermaid_placeholders d
        obtain ⟨code, k2, hk2, happ⟩ :=
          pieceApply_slot_covered (hcovSlotH d hm)
        refine ⟨code, ?_, (hcodesh _ hk2).2, (hcodesh _ hk2).1⟩
        rw [hother, happ]
  have hallinl : ∀ pc ∈ (ps0.map
      (pieceApply PType.mermaid s.mermaid_codes s.mermaid_placeholders)).map
      (pieceApply PType.html s.html_codes s.html_placeholders),
      ∃ s1, pc = Sum.inl s1 ∧ lbrace ∉ s1 := by
    rw [List.map_map]
    intro pc hm
    obtain ⟨pc0, hpc0, rfl⟩ := List.mem_map.mp hm
    cases pc0 with
    | inl s1 =>
      obtain ⟨heq, -, hl⟩ := (hpoint _ hpc0).1 s1 rfl
      exact ⟨s1, heq, hl⟩
    | inr pr =>
      obtain ⟨ty, d⟩ := pr
      obtain ⟨code, heq, -, hl⟩ := (hpoint _ hpc0).2 ty d rfl
      exact ⟨fenceOf ty code, heq, fence_lbrace_free hl⟩
  have hfree : lbrace ∉ render ((ps0.map
      (pieceApply PType.mermaid s.mermaid_codes s.mermaid_placeholders)).map
      (pieceApply PType.html s.html_codes s.html_placeholders)) :=
    lbrace_not_in_render hallinl
  have hremM : findAll mermaidPre (render ((ps0.map
      (pieceApply PType.mermaid s.mermaid_codes s.mermaid_placeholders)).map
      (pieceApply PType.html s.html_codes s.html_placeholders))) = [] :=
    findAll_eq_nil_of_no_lbrace mermaidPre_shape hfree
  have hremH : findAll htmlPre (render ((ps0.map
      (pieceApply PType.mermaid s.mermaid_codes s.mermaid_placeholders)).map
      (pieceApply PType.html s.html_codes s.html_placeholders))) = [] :=
    findAll_eq_nil_of_no_lbrace htmlPre_shape hfree
  have hrun : assemblerRun s = { s with
      final_md := render ((ps0.map
        (pieceApply PType.mermaid s.mermaid_codes s.mermaid_placeholders)).map
        (pieceApply PType.html s.html_codes s.html_placeholders)),
      assembly_errors := [],
      node_runs := s.node_runs ++ [⟨"assembler", "success", none⟩],
      current_node := "assembler",
      node_status := "success",
      error := none } := by
    unfold assemblerRun
    rw [if_neg hne]
    rw [e1]
    simp only []
    rw [e2]
    simp only [hremM, hremH, List.map_nil, List.append_nil, List.nil_append]
    rw [if_neg (by simp)]
  rw [hrun]
  refine ⟨rfl, rfl, ?_, ?_, ?_⟩
  · exact not_occursIn_of_lbrace_free (by decide) hfree
  · exact not_occursIn_of_lbrace_free (by decide) hfree
  · show (render _).count btick = _
    rw [List.map_map]
    have hcount := final_pieces_count ps0 (fun pc hm =>
      ⟨fun s1 he => ⟨((hpoint pc hm).1 s1 he).1, ((hpoint pc hm).1 s1 he).2.1⟩,
       fun ty d he => by
        obtain ⟨code, h1, h2, -⟩ := (hpoint pc hm).2 ty d he
        exact ⟨code, h1, h2⟩⟩)
    show (render (ps0.map (fun pc =>
      pieceApply PType.html s.html_codes s.html_placeholders
        (pieceApply PType.mermaid s.mermaid_codes s.mermaid_placeholders pc)))).count
          btick = _
    rw [hcount]
    have hlm : s.mermaid_placeholders.length =
        (ps0.filterMap (slotDescOf PType.mermaid)).length := by
      rw [hphm]
      show ((findAll mermaidPre s.draft_md).mapIdx
        (fun i d => (⟨"mermaid_" ++ toString (i + 1), pyStrip d⟩ : Placeholder))).length = _
      rw [length_mapIdx, hfm]
    have hlh : s.html_placeholders.length =
        (ps0.filterMap (slotDescOf PType.html)).length := by
      rw [hphh]
      show ((findAll htmlPre s.draft_md).mapIdx
        (fun i d => (⟨"html_" ++ toString (i + 1), pyStrip d⟩ : Placeholder))).length = _
      rw [length_mapIdx, hfh]
    rw [hlm, hlh]

/-- Scenario A of the spec: Scenario B's draft and placeholder list with
the artifact for `mermaid_1` present. -/
def scenarioA : WState :=
  { scenarioB with mermaid_codes := [("mermaid_1", "graph TD\nA-->B".data)] }

/-- The decomposition of Scenario A's draft. -/
def scenarioAPieces : List Piece :=
  [Sum.inl "# Doc\n".data,
   Sum.inr (PType.mermaid, "flow".data),
   Sum.inl "\nend".data]

theorem ball_nil {α : Type} (P : α → Prop) : ∀ x ∈ ([] : List α), P x :=
  fun x hx => absurd hx (List.not_mem_nil x)

theorem ball_cons {α : Type} {P : α → Prop} {a : α} {l : List α}
    (ha : P a) (hl : ∀ x ∈ l, P x) : ∀ x ∈ a :: l, P x := by
  intro x hx
  rcases List.mem_cons.mp hx with rfl | hx
  · exact ha
  · exact hl x hx

/-- C2 witness: the amended assembler-success theorem applied to
Scenario A. -/
theorem c2_assembler_success_witness :
    scenarioA.draft_md = render scenarioAPieces ∧
    scenarioA.draft_md ≠ [] ∧
    (∀ pc ∈ scenarioAPieces, GoodPiece pc) ∧
    scenarioA.mermaid_placeholders = (extractPlaceholders scenarioA.draft_md).1 ∧
    scenarioA.html_placeholders = (extractPlaceholders scenarioA.draft_md).2 ∧
    (∀ ph ∈ scenarioA.mermaid_placeholders,
      (alookup ph.id scenarioA.mermaid_codes).isSome) ∧
    (∀ ph ∈ scenarioA.html_placeholders,
      (alookup ph.id scenarioA.html_codes).isSome) ∧
    (∀ p ∈ scenarioA.mermaid_codes, lbrace ∉ p.2 ∧ btick ∉ p.2) ∧
    (∀ p ∈ scenarioA.html_codes, lbrace ∉ p.2 ∧ btick ∉ p.2) ∧
    ((assemblerRun scenarioA).node_status = "success" ∧
     (assemblerRun scenarioA).error = none ∧
     ¬ OccursIn mermaidPre (assemblerRun scenarioA).final_md ∧
     ¬ OccursIn htmlPre (assemblerRun scenarioA).final_md ∧
     (assemblerRun scenarioA).final_md.count btick =
       6 * (scenarioA.mermaid_placeholders.length +
            scenarioA.html_placeholders.length)) :=
  ⟨by decide, by decide,
   ball_cons (by decide) (ball_cons (by decide) (ball_cons (by decide) (ball_nil _))),
   by decide, by decide,
   ball_cons (by decide) (ball_nil _),
   ball_nil _,
   ball_cons (by decide) (ball_nil _),
   ball_nil _,
   c2_assembler_success scenarioA scenarioAPieces (by decide) (by decide)
     (ball_cons (by decide) (ball_cons (by decide) (ball_cons (by decide) (ball_nil _))))
     (by decide) (by decide)
     (ball_cons (by decide) (ball_nil _))
     (ball_nil _)
     (ball_cons (by decide) (ball_nil _))
     (ball_nil _)⟩

/-- C2, counterexample: the default state has an empty draft, so every one
of its (zero) placeholders has an artifact entry, yet the assembler
returns `node_status = fail` with `error_type = missing_draft`, not
success (the repository's own test `test_assembler_no_draft` asserts this
failure). -/
theorem c2_counterexample :
    extractPlaceholders (({} : WState)).draft_md = ([], []) ∧
    (assemblerRun ({} : WState)).node_status = "fail" ∧
    (assemblerRun ({} : WState)).node_status ≠ "success" ∧
    (assemblerRun ({} : WState)).error.map (fun e => e.error_type) =
      some "missing_draft" := by
  refine ⟨by decide, by decide, by decide, by decide⟩

/-! ## Routers (`backend/app/nodes/graph.py`) and the graph's edge maps
(`create_workflow`).  Each router is a pure function of the state; the
edge maps translate its answer into the next node (`none` = `END`). -/

/-- Outcomes of `_route_from_controller`. -/
inductive CtrlRoute
  | attachment
  | chat
  | write
  | retry
deriving DecidableEq, Repr

/-- Outcomes of `_route_from_attachment`. -/
inductive AttachRoute
  | controller
  | retry
deriving DecidableEq, Repr

/-- Outcomes of `_route_from_writer`. -/
inductive WriterRoute
  | image
  | retry
deriving DecidableEq, Repr

/-- Outcomes of `_route_from_image`. -/
inductive ImageRoute
  | checker
  | retry
deriving DecidableEq, Repr

/-- Outcomes of `_route_from_checker`. -/
inductive CheckerRoute
  | done
  | retry
deriving DecidableEq, Repr

/-- `_route_from_controller`: on failure retry below the hard-coded bound
`3`, else end the conversation; otherwise dispatch on pending attachments
and readiness. -/
def routeFromController (s : WState) : CtrlRoute :=
  if s.node_status = "fail" then
    if s.retry_count < 3 then CtrlRoute.retry else CtrlRoute.chat
  else if s.attachments.filter (fun a => a.summary.isEmpty) ≠ [] then
    CtrlRoute.attachment
  else if s.ready_to_write then CtrlRoute.write
  else CtrlRoute.chat

/-- `_route_from_attachment`. -/
def routeFromAttachment (s : WState) : AttachRoute :=
  if s.node_status = "fail" then
    if s.retry_count < 3 then AttachRoute.retry else AttachRoute.controller
  else AttachRoute.controller

/-- `_route_from_writer`. -/
def routeFromWriter (s : WState) : WriterRoute :=
  if s.node_status = "fail" then
    if s.retry_count < 3 then WriterRoute.retry else WriterRoute.image
  else WriterRoute.image

/-- `_route_from_image`. -/
def routeFromImage (s : WState) : ImageRoute :=
  if s.node_status = "fail" then
    if s.retry_count < 3 then ImageRoute.retry else ImageRoute.checker
  else ImageRoute.checker

/-- `_route_from_checker`. -/
def routeFromChecker (s : WState) : CheckerRoute :=
  if s.node_status = "fail" then
    if s.retry_count < 3 then CheckerRoute.retry else CheckerRoute.done
  else CheckerRoute.done

/-- The controller's conditional-edge map (`"chat"` maps to `END`). -/
def controllerEdge : CtrlRoute → Option String
  | CtrlRoute.attachment => some "attachment"
  | CtrlRoute.chat => none
  | CtrlRoute.write => some "writer"
  | CtrlRoute.retry => some "controller"

/-- The attachment node's conditional-edge map. -/
def attachmentEdge : AttachRoute → Option String
  | AttachRoute.controller => some "controller"
  | AttachRoute.retry => some "attachment"

/-- The writer node's conditional-edge map. -/
def writerEdge : WriterRoute → Option String
  | WriterRoute.image => some "image"
  | WriterRoute.retry => some "writer"

/-- The image node's conditional-edge map. -/
def imageEdge : ImageRoute → Option String
  | ImageRoute.checker => some "checker"
  | ImageRoute.retry => some "image"

/-- The checker node's conditional-edge map (`"done"` maps to `END`). -/
def checkerEdge : CheckerRoute → Option String
  | CheckerRoute.done => none
  | CheckerRoute.retry => some "checker"

/-! ## Writer node (`backend/app/nodes/writer.py`, `run`) -/

/-- The parsed outcome of the writer model call
(`_parse_writer_response`, which never raises). -/
structure WriterResult where
  draft_md : Str := []
  mermaid_placeholders : List Placeholder := []
  html_placeholders : List Placeholder := []
deriving DecidableEq, Repr

/-- `writer.run`; the Model Gateway call together with the response
parsing is abstracted as the `call` parameter (`Except.error` when
`model_client.call` raises).  The second component counts Model Gateway
calls made on the path taken. -/
def writerRunT (call : Except String WriterResult) (s : WState) : WState × Nat :=
  if s.doc_variables.doc_type = [] ∧ s.doc_variables.outline = [] ∧
      s.doc_variables.plan_md = [] then
    ({ s with
        current_node := "writer",
        node_status := "fail",
        error := some ⟨"validation_failed",
          "文档信息不足，请先通过中控澄清需求（缺少 doc_type/outline/plan_md）",
          "返回中控节点补充文档类型和大纲", []⟩ }, 0)
  else
    match call with
    | Except.ok r =>
        ({ s with
            draft_md := r.draft_md,
            mermaid_placeholders := r.mermaid_placeholders,
            html_placeholders := r.html_placeholders,
            node_runs := s.node_runs ++ [⟨"writer", "success", none⟩],
            current_node := "writer",
            node_status := "success",
            error := none }, 1)
    | Except.error msg =>
        ({ s with
            node_runs := s.node_runs ++
              [⟨"writer", "fail", some ⟨"model_error", msg, "重试调用撰写模型", []⟩⟩],
            current_node := "writer",
            node_status := "fail",
            error := some ⟨"model_error", msg, "重试调用撰写模型", []⟩,
            retry_count := s.retry_count + 1 }, 1)

/-- The state returned by `writer.run`. -/
def writerRun (call : Except String WriterResult) (s : WState) : WState :=
  (writerRunT call s).1

/-- The graph loop around a writer whose model call always raises: run the
node, then follow `_route_from_writer` until it stops retrying, counting
attempts.  (LangGraph re-invokes the node while the router answers
`"retry"`.) -/
def writerFailLoop (msg : String) : Nat → WState → Nat × WState
  | 0, s => (0, s)
  | fuel + 1, s =>
      match routeFromWriter (writerRun (Except.error msg) s) with
      | WriterRoute.retry =>
          ((writerFailLoop msg fuel (writerRun (Except.error msg) s)).1 + 1,
           (writerFailLoop msg fuel (writerRun (Except.error msg) s)).2)
      | WriterRoute.image => (1, writerRun (Except.error msg) s)

/-- On the model-error path the writer returns the input state with one
fail record appended, the error populated, and `retry_count` bumped. -/
theorem writerRun_fail_eq (msg : String) (s : WState)
    (hval : ¬(s.doc_variables.doc_type = [] ∧ s.doc_variables.outline = [] ∧
      s.doc_variables.plan_md = [])) :
    writerRun (Except.error msg) s =
      { s with
          node_runs := s.node_runs ++
            [⟨"writer", "fail", some ⟨"model_error", msg, "重试调用撰写模型", []⟩⟩],
          current_node := "writer",
          node_status := "fail",
          error := some ⟨"model_error", msg, "重试调用撰写模型", []⟩,
          retry_count := s.retry_count + 1 } := by
  unfold writerRun writerRunT
  rw [if_neg hval]

/-- On the success path the writer returns the input state with its
drafts installed and one success record appended. -/
theorem writerRun_ok_eq (r : WriterResult) (s : WState)
    (hval : ¬(s.doc_variables.doc_type = [] ∧ s.doc_variables.outline = [] ∧
      s.doc_variables.plan_md = [])) :
    writerRun (Except.ok r) s =
      { s with
          draft_md := r.draft_md,
          mermaid_placeholders := r.mermaid_placeholders,
          html_placeholders := r.html_placeholders,
          node_runs := s.node_runs ++ [⟨"writer", "success", none⟩],
          current_node := "writer",
          node_status := "success",
          error := none } := by
  unfold writerRun writerRunT
  rw [if_neg hval]

theorem routeFromWriter_fail (s : WState) (h : s.node_status = "fail") :
    routeFromWriter s =
      if s.retry_count < 3 then WriterRoute.retry else WriterRoute.image := by
  unfold routeFromWriter
  rw [h, if_pos rfl]

theorem writerFailLoop_step_retry (msg : String) (fuel : Nat) (s : WState)
    (hroute : routeFromWriter (writerRun (Except.error msg) s) = WriterRoute.retry) :
    writerFailLoop msg (fuel + 1) s =
      ((writerFailLoop msg fuel (writerRun (Except.error msg) s)).1 + 1,
       (writerFailLoop msg fuel (writerRun (Except.error msg) s)).2) := by
  conv_lhs => rw [writerFailLoop]
  rw [hroute]

theorem writerFailLoop_step_image (msg : String) (fuel : Nat) (s : WState)
    (hroute : routeFromWriter (writerRun (Except.error msg) s) = WriterRoute.image) :
    writerFailLoop msg (fuel + 1) s = (1, writerRun (Except.error msg) s) := by
  conv_lhs => rw [writerFailLoop]
  rw [hroute]

/-- C3.  CORRECTED.  The original claim says an always-failing step is
attempted `maxRetries + 1` times with final `retry_count = maxRetries`.
The routers in `graph.py` compare `retry_count` against the literal `3`
and never read `max_retries`, and the third failed attempt already routes
away: starting from `retry_count = 0`, an always-failing writer is
attempted exactly `3` times (not `max_retries + 1 = 4`), the final state
has `retry_count = 3` and `node_status = "fail"`, and the router then
advances to the image node.  The count `3` holds for every state, whatever
its `max_retries` field. -/
theorem c3_retry_bound (s : WState) (msg : String) (fuel : Nat)
    (hrc : s.retry_count = 0)
    (hval : ¬(s.doc_variables.doc_type = [] ∧ s.doc_variables.outline = [] ∧
      s.doc_variables.plan_md = []))
    (hfuel : 3 ≤ fuel) :
    (writerFailLoop msg fuel s).1 = 3 ∧
    (writerFailLoop msg fuel s).2.retry_count = 3 ∧
    (writerFailLoop msg fuel s).2.node_status = "fail" ∧
    routeFromWriter (writerFailLoop msg fuel s).2 = WriterRoute.image := by
  obtain ⟨f, rfl⟩ : ∃ f, fuel = f + 3 := ⟨fuel - 3, by omega⟩
  have h1 := writerRun_fail_eq msg s hval
  have hdv1 : (writerRun (Except.error msg) s).doc_variables = s.doc_variables := by
    rw [h1]
  have hval1 : ¬((writerRun (Except.error msg) s).doc_variables.doc_type = [] ∧
      (writerRun (Except.error msg) s).doc_variables.outline = [] ∧
      (writerRun (Except.error msg) s).doc_variables.plan_md = []) := by
    rw [hdv1]; exact hval
  have hrc1 : (writerRun (Except.error msg) s).retry_count = 1 := by
    rw [h1]; show s.retry_count + 1 = 1; rw [hrc]
  have hst1 : (writerRun (Except.error msg) s).node_status = "fail" := by rw [h1]
  have hr1 : routeFromWriter (writerRun (Except.error msg) s) = WriterRoute.retry := by
    rw [routeFromWriter_fail _ hst1, if_pos (by rw [hrc1]; omega)]
  have h2 := writerRun_fail_eq msg (writerRun (Except.error msg) s) hval1
  have hdv2 : (writerRun (Except.error msg) (writerRun (Except.error msg) s)).doc_variables
      = s.doc_variables := by rw [h2]; exact hdv1
  have hval2 : ¬((writerRun (Except.error msg) (writerRun (Except.error msg) s)).doc_variables.doc_type = [] ∧
      (writerRun (Except.error msg) (writerRun (Except.error msg) s)).doc_variables.outline = [] ∧
      (writerRun (Except.error msg) (writerRun (Except.error msg) s)).doc_variables.plan_md = []) := by
    rw [hdv2]; exact hval
  have hrc2 : (writerRun (Except.error msg) (writerRun (Except.error msg) s)).retry_count = 2 := by
    rw [h2]
    show (writerRun (Except.error msg) s).retry_count + 1 = 2
    rw [hrc1]
  have hst2 : (writerRun (Except.error msg) (writerRun (Except.error msg) s)).node_status
      = "fail" := by rw [h2]
  have hr2 : routeFromWriter (writerRun (Except.error msg) (writerRun (Except.error msg) s))
      = WriterRoute.retry := by
    rw [routeFromWriter_fail _ hst2, if_pos (by rw [hrc2]; omega)]
  have h3 := writerRun_fail_eq msg
    (writerRun (Except.error msg) (writerRun (Except.error msg) s)) hval2
  have hrc3 : (writerRun (Except.error msg)
      (writerRun (Except.error msg) (writerRun (Except.error msg) s))).retry_count = 3 := by
    rw [h3]
    show (writerRun (Except.error msg) (writerRun (Except.error msg) s)).retry_count + 1 = 3
    rw [hrc2]
  have hst3 : (writerRun (Except.error msg)
      (writerRun (Except.error msg) (writerRun (Except.error msg) s))).node_status = "fail" := by
    rw [h3]
  have hr3 : routeFromWriter (writerRun (Except.error msg)
      (writerRun (Except.error msg) (writerRun (Except.error msg) s))) = WriterRoute.image := by
    rw [routeFromWriter_fail _ hst3, if_neg (by rw [hrc3]; omega)]
  have e1 := writerFailLoop_step_retry msg (f + 2) s hr1
  have e2 := writerFailLoop_step_retry msg (f + 1) (writerRun (Except.error msg) s) hr2
  have e3 := writerFailLoop_step_image msg f
    (writerRun (Except.error msg) (writerRun (Except.error msg) s)) hr3
  refine ⟨?_, ?_, ?_, ?_⟩ <;> simp only [e1, e2, e3]
  · exact hrc3
  · exact hst3
  · exact hr3

/-- Concrete state used for the C3 witness and counterexample: document
type present, `retry_count = 0`, `max_retries` at its default `3`. -/
def writerState0 : WState := { doc_variables := { doc_type := "t".data } }

/-- C3 counterexample to the original claim: the always-failing writer is
attempted `3` times, not `max_retries + 1 = 4` times. -/
theorem c3_counterexample :
    writerState0.max_retries = 3 ∧
    (writerFailLoop "boom" 9 writerState0).1 = 3 ∧
    (writerFailLoop "boom" 9 writerState0).1 ≠ writerState0.max_retries + 1 := by
  decide

theorem c3_retry_bound_witness :
    (writerState0.retry_count = 0 ∧
     ¬(writerState0.doc_variables.doc_type = [] ∧
       writerState0.doc_variables.outline = [] ∧
       writerState0.doc_variables.plan_md = []) ∧
     3 ≤ 5) ∧
    ((writerFailLoop "boom" 5 writerState0).1 = 3 ∧
     (writerFailLoop "boom" 5 writerState0).2.retry_count = 3 ∧
     (writerFailLoop "boom" 5 writerState0).2.node_status = "fail" ∧
     routeFromWriter (writerFailLoop "boom" 5 writerState0).2 = WriterRoute.image) :=
  ⟨⟨rfl, by decide, by decide⟩,
   c3_retry_bound writerState0 "boom" 5 rfl (by decide) (by decide)⟩

/-- C4.  CORRECTED.  The original claim says every non-controller step
that fails with exhausted retries "terminates the run as failed".  In
`graph.py` only the controller's exhausted-failure route reaches `END`
(the `"chat"` edge, i.e. back to the conversation); the checker's
exhausted failure also reaches `END` via `"done"`; but an exhausted
failure of attachment, writer or image ADVANCES to the next node
(`controller`, `image`, `checker` respectively) instead of terminating.
This theorem characterises all five routers on a failed state with
`retry_count ≥ 3`. -/
theorem c4_retry_exhaustion_routing (s : WState)
    (hfail : s.node_status = "fail") (hrc : 3 ≤ s.retry_count) :
    routeFromController s = CtrlRoute.chat ∧
    controllerEdge (routeFromController s) = none ∧
    routeFromAttachment s = AttachRoute.controller ∧
    attachmentEdge (routeFromAttachment s) = some "controller" ∧
    routeFromWriter s = WriterRoute.image ∧
    writerEdge (routeFromWriter s) = some "image" ∧
    routeFromImage s = ImageRoute.checker ∧
    imageEdge (routeFromImage s) = some "checker" ∧
    routeFromChecker s = CheckerRoute.done ∧
    checkerEdge (routeFromChecker s) = none := by
  have hlt : ¬ s.retry_count < 3 := by omega
  have h1 : routeFromController s = CtrlRoute.chat := by
    unfold routeFromController; rw [hfail, if_pos rfl, if_neg hlt]
  have h2 : routeFromAttachment s = AttachRoute.controller := by
    unfold routeFromAttachment; rw [hfail, if_pos rfl, if_neg hlt]
  have h3 : routeFromWriter s = WriterRoute.image := by
    unfold routeFromWriter; rw [hfail, if_pos rfl, if_neg hlt]
  have h4 : routeFromImage s = ImageRoute.checker := by
    unfold routeFromImage; rw [hfail, if_pos rfl, if_neg hlt]
  have h5 : routeFromChecker s = CheckerRoute.done := by
    unfold routeFromChecker; rw [hfail, if_pos rfl, if_neg hlt]
  exact ⟨h1, by rw [h1]; rfl, h2, by rw [h2]; rfl, h3, by rw [h3]; rfl,
         h4, by rw [h4]; rfl, h5, by rw [h5]; rfl⟩

/-- A failed state with exhausted retries, for C4. -/
def failedState3 : WState := { node_status := "fail", retry_count := 3 }

/-- C4 counterexample to the original claim: a writer failure with
`retry_count = 3 = max_retries` routes to the image node — the run is
NOT terminated as failed. -/
theorem c4_counterexample :
    failedState3.node_status = "fail" ∧
    failedState3.retry_count = failedState3.max_retries ∧
    writerEdge (routeFromWriter failedState3) = some "image" ∧
    writerEdge (routeFromWriter failedState3) ≠ none := by
  decide

theorem c4_retry_exhaustion_routing_witness :
    (failedState3.node_status = "fail" ∧ 3 ≤ failedState3.retry_count) ∧
    (routeFromController failedState3 = CtrlRoute.chat ∧
     controllerEdge (routeFromController failedState3) = none ∧
     routeFromAttachment failedState3 = AttachRoute.controller ∧
     attachmentEdge (routeFromAttachment failedState3) = some "controller" ∧
     routeFromWriter failedState3 = WriterRoute.image ∧
     writerEdge (routeFromWriter failedState3) = some "image" ∧
     routeFromImage failedState3 = ImageRoute.checker ∧
     imageEdge (routeFromImage failedState3) = some "checker" ∧
     routeFromChecker failedState3 = CheckerRoute.done ∧
     checkerEdge (routeFromChecker failedState3) = none) :=
  ⟨⟨rfl, by decide⟩, c4_retry_exhaustion_routing failedState3 rfl (by decide)⟩

/-! ## Controller node (`backend/app/nodes/controller.py`, `run`) -/

/-- The parsed outcome of the controller model call
(`_parse_controller_response`, which never raises).  The
`doc_variables_patch` dict is typed per field (absent key = `none`). -/
structure CtrlParsed where
  plan_md : Str := []
  patch_doc_type : Option Str := none
  patch_outline : Option (List Str) := none
  patch_plan_md : Option Str := none
  patch_write_mode : Option String := none
  reply : Str := []
  decision : Str := []
  ready_to_write : Bool := false
deriving DecidableEq, Repr

/-- `_normalize_decision`: map the model's decision text to `"write"` or
`"chat"`, falling back to `ready_to_write`. -/
def normalizeDecision (value : Str) (ready_to_write : Bool) : String :=
  let v := (pyStrip value).map Char.toLower
  if v = "write".data ∨ v = "start_write".data ∨ v = "start_writing".data then
    "write"
  else if v = "chat".data ∨ v = "ask".data ∨ v = "clarify".data then "chat"
  else if value = "开始撰写".data ∨ value = "开始写作".data ∨
      value = "写作".data ∨ value = "撰写".data ∨ value = "开始写".data then
    "write"
  else if value = "继续对话".data ∨ value = "继续问".data ∨
      value = "追问".data ∨ value = "澄清".data ∨ value = "继续澄清".data then
    "chat"
  else if ready_to_write then "write" else "chat"

/-- The dict merge `{**doc_variables, **patch}`. -/
def applyPatch (p : CtrlParsed) (dv : DocVars) : DocVars :=
  { doc_type := p.patch_doc_type.getD dv.doc_type,
    outline := p.patch_outline.getD dv.outline,
    plan_md := p.patch_plan_md.getD dv.plan_md,
    write_mode := match p.patch_write_mode with
      | some w => some w
      | none => dv.write_mode }

/-- `controller.run`; the Model Gateway call plus response parsing is
abstracted as the `call` parameter (`Except.error` when the call raises). -/
def controllerRun (call : Except String CtrlParsed) (s : WState) : WState :=
  match call with
  | Except.error msg =>
      { s with
          node_runs := s.node_runs ++
            [⟨"controller", "fail", some ⟨"model_error", msg, "重试调用模型", []⟩⟩],
          current_node := "controller",
          node_status := "fail",
          error := some ⟨"model_error", msg, "重试调用模型", []⟩,
          retry_count := s.retry_count + 1 }
  | Except.ok res =>
      let ready0 := res.ready_to_write
      let decision := normalizeDecision res.decision ready0
      let ready := ready0 || (decision == "write")
      let plan_md := pyStrip res.plan_md
      let dv1 := applyPatch res s.doc_variables
      let dv2 := if plan_md ≠ [] then { dv1 with plan_md := plan_md } else dv1
      let dv3 := if dv2.write_mode = none then
          { dv2 with write_mode := some "chapter" } else dv2
      { s with
          doc_variables := dv3,
          chat_history := s.chat_history ++ [("assistant", res.reply)],
          node_runs := s.node_runs ++ [⟨"controller", "success", none⟩],
          current_node := "controller",
          node_status := "success",
          error := none,
          decision := decision,
          ready_to_write := ready }

/-- C7.  CORRECTED.  The original claim says `retry_count` increments only
when the router chooses to retry the failed step, and resets to 0 on a
transition to a different step type.  In the code each node's failure path
increments `retry_count` unconditionally — before and independently of the
router's decision — and NO path ever resets it: the controller's success
path spreads the old state and leaves `retry_count` untouched even when
the run then transitions to the writer.  Concretely: a controller success
preserves `retry_count`; a controller model failure increments it; a
writer non-error call preserves it; and on a state with `retry_count ≥ 3`
a writer model failure still increments it even though the router then
advances to the image node rather than retrying. -/
theorem c7_retry_count_dynamics (s : WState) (res : CtrlParsed)
    (r : WriterResult) (msg : String) :
    (controllerRun (Except.ok res) s).retry_count = s.retry_count ∧
    (controllerRun (Except.error msg) s).retry_count = s.retry_count + 1 ∧
    (writerRun (Except.ok r) s).retry_count = s.retry_count ∧
    (3 ≤ s.retry_count →
      ¬(s.doc_variables.doc_type = [] ∧ s.doc_variables.outline = [] ∧
        s.doc_variables.plan_md = []) →
      (writerRun (Except.error msg) s).retry_count = s.retry_count + 1 ∧
      routeFromWriter (writerRun (Except.error msg) s) = WriterRoute.image) := by
  refine ⟨rfl, rfl, ?_, ?_⟩
  · unfold writerRun writerRunT
    split
    · rfl
    · rfl
  · intro hrc hval
    have h1 := writerRun_fail_eq msg s hval
    have hrc1 : (writerRun (Except.error msg) s).retry_count = s.retry_count + 1 := by
      rw [h1]
    have hst1 : (writerRun (Except.error msg) s).node_status = "fail" := by rw [h1]
    refine ⟨hrc1, ?_⟩
    rw [routeFromWriter_fail _ hst1, if_neg (by rw [hrc1]; omega)]

/-- A parsed controller result that decides to write. -/
def ctrlResWrite : CtrlParsed := { decision := "write".data }

/-- A state mid-run with two retries consumed and a document type. -/
def ctrlState2 : WState :=
  { retry_count := 2, doc_variables := { doc_type := "t".data } }

/-- A failed-writer input state with exhausted retries. -/
def writerState3 : WState :=
  { retry_count := 3, doc_variables := { doc_type := "t".data } }

/-- C7 counterexample to the original claim.  First part: after a
controller success that transitions the run to the writer step (the router
answers `"write"`), `retry_count` is still 2, not reset to 0.  Second
part: on a failed-writer state with `retry_count = 3` another writer
failure increments it to 4 even though the router does not retry the
writer (it advances to the image node). -/
theorem c7_counterexample :
    (routeFromController (controllerRun (Except.ok ctrlResWrite) ctrlState2) =
        CtrlRoute.write ∧
      controllerEdge CtrlRoute.write = some "writer" ∧
      (controllerRun (Except.ok ctrlResWrite) ctrlState2).retry_count = 2 ∧
      (controllerRun (Except.ok ctrlResWrite) ctrlState2).retry_count ≠ 0) ∧
    ((writerRun (Except.error "x") writerState3).retry_count = 4 ∧
      routeFromWriter (writerRun (Except.error "x") writerState3) =
        WriterRoute.image) := by
  decide

theorem c7_retry_count_dynamics_witness :
    (controllerRun (Except.ok ctrlResWrite) writerState3).retry_count =
      writerState3.retry_count ∧
    (controllerRun (Except.error "e") writerState3).retry_count =
      writerState3.retry_count + 1 ∧
    (writerRun (Except.ok ({} : WriterResult)) writerState3).retry_count =
      writerState3.retry_count ∧
    ((writerRun (Except.error "e") writerState3).retry_count =
        writerState3.retry_count + 1 ∧
      routeFromWriter (writerRun (Except.error "e") writerState3) =
        WriterRoute.image) := by
  obtain ⟨a, b, c, d⟩ :=
    c7_retry_count_dynamics writerState3 ctrlResWrite {} "e"
  exact ⟨a, b, c, d (by decide) (by decide)⟩

/-- C5.  CORRECTED.  The original claim says EVERY path of every step's
run function appends exactly one audit record, and every failure return
increments `retry_count`.  Both parts fail on the early-validation
returns: the writer's missing-doc-variables return and the assembler's
missing-draft return append NO audit record and leave `retry_count`
unchanged (the writer's cancellation return, covered with C8, also leaves
it unchanged).  What does hold: every path sets `current_node` to the
step's own name and sets `node_status`; the non-validation paths append
exactly one audit record; the model-error and assembly-error paths
populate `error` with a machine-readable kind and increment
`retry_count`; the success paths clear `error` and leave `retry_count`
unchanged. -/
theorem c5_output_contract (s : WState) (msg : String) (r : WriterResult) :
    ((writerRun (Except.ok r) s).current_node = "writer" ∧
     (writerRun (Except.error msg) s).current_node = "writer" ∧
     (assemblerRun s).current_node = "assembler") ∧
    (¬(s.doc_variables.doc_type = [] ∧ s.doc_variables.outline = [] ∧
        s.doc_variables.plan_md = []) →
      (writerRun (Except.ok r) s).node_runs.length = s.node_runs.length + 1 ∧
      (writerRun (Except.ok r) s).node_status = "success" ∧
      (writerRun (Except.ok r) s).error = none ∧
      (writerRun (Except.ok r) s).retry_count = s.retry_count ∧
      (writerRun (Except.error msg) s).node_runs.length = s.node_runs.length + 1 ∧
      (writerRun (Except.error msg) s).node_status = "fail" ∧
      (writerRun (Except.error msg) s).error =
        some ⟨"model_error", msg, "重试调用撰写模型", []⟩ ∧
      (writerRun (Except.error msg) s).retry_count = s.retry_count + 1) ∧
    (s.doc_variables.doc_type = [] ∧ s.doc_variables.outline = [] ∧
        s.doc_variables.plan_md = [] →
      ∀ call, (writerRun call s).node_runs = s.node_runs ∧
        (writerRun call s).retry_count = s.retry_count ∧
        (writerRun call s).node_status = "fail" ∧
        (writerRun call s).error.map (fun e => e.error_type) =
          some "validation_failed") ∧
    (s.draft_md = [] →
      (assemblerRun s).node_runs = s.node_runs ∧
      (assemblerRun s).retry_count = s.retry_count ∧
      (assemblerRun s).node_status = "fail" ∧
      (assemblerRun s).error.map (fun e => e.error_type) =
        some "missing_draft") ∧
    (s.draft_md ≠ [] →
      (assemblerRun s).node_runs.length = s.node_runs.length + 1 ∧
      ((assemblerRun s).node_status = "fail" →
        (assemblerRun s).retry_count = s.retry_count + 1 ∧
        (assemblerRun s).error.map (fun e => e.error_type) =
          some "assembly_failed") ∧
      ((assemblerRun s).node_status = "success" →
        (assemblerRun s).retry_count = s.retry_count ∧
        (assemblerRun s).error = none)) := by
  refine ⟨⟨?_, ?_, ?_⟩, ?_, ?_, ?_, ?_⟩
  · unfold writerRun writerRunT
    split <;> rfl
  · unfold writerRun writerRunT
    split <;> rfl
  · unfold assemblerRun
    split
    · rfl
    · dsimp only
      split <;> rfl
  · intro hval
    have hok := writerRun_ok_eq r s hval
    have herr := writerRun_fail_eq msg s hval
    refine ⟨?_, ?_, ?_, ?_, ?_, ?_, ?_, ?_⟩
    · rw [hok]; simp
    · rw [hok]
    · rw [hok]
    · rw [hok]
    · rw [herr]; simp
    · rw [herr]
    · rw [herr]
    · rw [herr]
  · intro hval call
    have hbase : writerRunT call s =
        ({ s with
            current_node := "writer",
            node_status := "fail",
            error := some ⟨"validation_failed",
              "文档信息不足，请先通过中控澄清需求（缺少 doc_type/outline/plan_md）",
              "返回中控节点补充文档类型和大纲", []⟩ }, 0) := by
      unfold writerRunT
      rw [if_pos hval]
    refine ⟨?_, ?_, ?_, ?_⟩ <;> (unfold writerRun; rw [hbase]) <;> rfl
  · intro hdraft
    unfold assemblerRun
    rw [if_pos hdraft]
    exact ⟨rfl, rfl, rfl, rfl⟩
  · intro hdraft
    unfold assemblerRun
    rw [if_neg hdraft]
    dsimp only
    split
    · refine ⟨by simp, ?_, ?_⟩
      · intro _
        exact ⟨rfl, rfl⟩
      · intro hcontra
        exact absurd hcontra (by decide : ("fail" : String) ≠ "success")
    · refine ⟨by simp, ?_, ?_⟩
      · intro hcontra
        exact absurd hcontra (by decide : ("success" : String) ≠ "fail")
      · intro _
        exact ⟨rfl, rfl⟩

/-- C5 counterexample to the original claim: on the writer's
missing-doc-variables validation return the status is `fail`, yet no
audit record is appended and `retry_count` is not incremented. -/
theorem c5_counterexample :
    (writerRun (Except.error "x") ({} : WState)).node_status = "fail" ∧
    (writerRun (Except.error "x") ({} : WState)).node_runs.length = 0 ∧
    (writerRun (Except.error "x") ({} : WState)).node_runs.length ≠
      ({} : WState).node_runs.length + 1 ∧
    (writerRun (Except.error "x") ({} : WState)).retry_count = 0 ∧
    (writerRun (Except.error "x") ({} : WState)).retry_count ≠
      ({} : WState).retry_count + 1 := by
  decide

theorem c5_output_contract_witness :
    ((writerRun (Except.ok ({} : WriterResult)) writerState3).node_runs.length =
        writerState3.node_runs.length + 1 ∧
      (writerRun (Except.ok ({} : WriterResult)) writerState3).node_status =
        "success" ∧
      (writerRun (Except.error "e") writerState3).node_status = "fail" ∧
      (writerRun (Except.error "e") writerState3).retry_count =
        writerState3.retry_count + 1) ∧
    ((writerRun (Except.error "e") ({} : WState)).node_runs =
        ({} : WState).node_runs ∧
      (writerRun (Except.error "e") ({} : WState)).retry_count =
        ({} : WState).retry_count ∧
      (writerRun (Except.error "e") ({} : WState)).error.map
        (fun e => e.error_type) = some "validation_failed") ∧
    ((assemblerRun ({} : WState)).node_runs = ({} : WState).node_runs ∧
      (assemblerRun ({} : WState)).error.map (fun e => e.error_type) =
        some "missing_draft") ∧
    ((assemblerRun scenarioB).node_runs.length =
        scenarioB.node_runs.length + 1 ∧
      (assemblerRun scenarioB).retry_count = scenarioB.retry_count + 1) := by
  obtain ⟨-, hB, -, -, -⟩ := c5_output_contract writerState3 "e" {}
  obtain ⟨ha, hb, -, hd, -, hf, -, hh⟩ := hB (by decide)
  obtain ⟨-, -, hC, hD, -⟩ := c5_output_contract ({} : WState) "e" {}
  obtain ⟨hva, hvb, -, hvd⟩ := hC (by decide) (Except.error "e")
  obtain ⟨hda, hdb, -, hdd⟩ := hD (by decide)
  obtain ⟨-, -, -, -, hE⟩ := c5_output_contract scenarioB "e" {}
  obtain ⟨hea, heb, -⟩ := hE (by decide)
  exact ⟨⟨ha, hb, hf, hh⟩, ⟨hva, hvb, hvd⟩, ⟨hda, hdd⟩,
         ⟨hea, (heb (by decide)).1⟩⟩

/-! ## Streaming writer (`backend/app/nodes/writer.py`, `run_streaming`)

The Model Gateway stream is modelled as a list of events per call
(`streams i` for the `i`-th chapter; `streams 0` in full mode).  The
cooperative cancellation signal is monotone: `cancelFrom = some k` means
`cancel_event.is_set()` answers true from the `k`-th check on (`none` =
never set).  The model counts every `is_set()` check performed and
records, for each `stream_call`, how many checks had been performed
before the call was issued. -/

/-- One event of `model_client.stream_call`. -/
inductive SEvent
  | thinking (content : Str)
  | content (content : Str)
  | error (message : String)
  | done
deriving DecidableEq, Repr

/-- Outcome of an event loop or chapter loop: a finished draft, a raised
`asyncio.CancelledError`, or a raised `Exception(ev["message"])`. -/
inductive LoopOut
  | ok (draft : Str)
  | cancelled
  | modelError (msg : String)
deriving DecidableEq, Repr

/-- The cancellation signal as observed by the check with index `tick`. -/
def isSet (cancelFrom : Option Nat) (tick : Nat) : Bool :=
  match cancelFrom with
  | none => false
  | some k => decide (k ≤ tick)

/-- The `async for ev in stream_call(...)` body: before examining each
event the loop checks the cancellation signal; `thinking` events are
dropped, `content` chunks are appended to the draft, an `error` event
raises, `done` breaks.  Returns the outcome and the new check counter. -/
def runEvents (c : Option Nat) : List SEvent → Str → Nat → LoopOut × Nat
  | [], draft, tick => (LoopOut.ok draft, tick)
  | ev :: rest, draft, tick =>
      if isSet c tick then (LoopOut.cancelled, tick + 1)
      else
        match ev with
        | SEvent.thinking _ => runEvents c rest draft (tick + 1)
        | SEvent.content chunk => runEvents c rest (draft ++ chunk) (tick + 1)
        | SEvent.error m => (LoopOut.modelError m, tick + 1)
        | SEvent.done => (LoopOut.ok draft, tick + 1)

/-- The chapter loop: per chapter one cancellation check, then one
`stream_call` (recorded with the number of checks performed before it),
then the event loop, then `draft += "\n\n"`. -/
def runChapters (c : Option Nat) (streams : Nat → List SEvent) :
    List Str → Nat → Str → Nat → List Nat → LoopOut × Nat × List Nat
  | [], _, draft, tick, calls => (LoopOut.ok draft, tick, calls)
  | _ :: rest, idx, draft, tick, calls =>
      if isSet c tick then (LoopOut.cancelled, tick + 1, calls)
      else
        match runEvents c (streams idx) draft (tick + 1) with
        | (LoopOut.ok draft2, tick2) =>
            runChapters c streams rest (idx + 1) (draft2 ++ "\n\n".data) tick2
              (calls ++ [tick + 1])
        | (LoopOut.cancelled, tick2) =>
            (LoopOut.cancelled, tick2, calls ++ [tick + 1])
        | (LoopOut.modelError m, tick2) =>
            (LoopOut.modelError m, tick2, calls ++ [tick + 1])

/-- The error recorded on the `asyncio.CancelledError` path. -/
def cancelErr : ErrInfo :=
  ⟨"cancelled", "用户已停止输出", "修改计划后可重新执行", []⟩

/-- `writer.run_streaming`: validation, then chapter mode (outline
present and `write_mode` not `"full"`) or full mode, then the success /
cancelled / model-error returns.  Result: the new state, the list of
check-counts at which `stream_call`s were issued, and the total number
of cancellation checks performed. -/
def writerRunStreamingT (cancelFrom : Option Nat) (streams : Nat → List SEvent)
    (s : WState) : WState × List Nat × Nat :=
  if s.doc_variables.doc_type = [] ∧ s.doc_variables.outline = [] ∧
      s.doc_variables.plan_md = [] then
    ({ s with
        current_node := "writer",
        node_status := "fail",
        error := some ⟨"validation_failed",
          "文档信息不足，无法开始撰写（缺少 doc_type/outline/plan_md）",
          "返回中控节点补充撰写指南/大纲", []⟩ }, [], 0)
  else
    let useChapter := s.doc_variables.outline ≠ [] ∧
      s.doc_variables.write_mode ≠ some "full"
    let out :=
      if useChapter then
        runChapters cancelFrom streams
          (s.doc_variables.outline.filter (fun t => pyStrip t ≠ [])) 0 [] 0 []
      else
        ((runEvents cancelFrom (streams 0) [] 0).1,
         (runEvents cancelFrom (streams 0) [] 0).2, [0])
    match out with
    | (LoopOut.ok draft, tick, calls) =>
        ({ s with
            draft_md := draft,
            mermaid_placeholders := (extractPlaceholders draft).1,
            html_placeholders := (extractPlaceholders draft).2,
            node_runs := s.node_runs ++ [⟨"writer", "success", none⟩],
            current_node := "writer",
            node_status := "success",
            error := none }, calls, tick)
    | (LoopOut.cancelled, tick, calls) =>
        ({ s with
            node_runs := s.node_runs ++ [⟨"writer", "fail", some cancelErr⟩],
            current_node := "writer",
            node_status := "fail",
            error := some cancelErr }, calls, tick)
    | (LoopOut.modelError m, tick, calls) =>
        ({ s with
            node_runs := s.node_runs ++
              [⟨"writer", "fail", some ⟨"model_error", m, "重试调用撰写模型", []⟩⟩],
            current_node := "writer",
            node_status := "fail",
            error := some ⟨"model_error", m, "重试调用撰写模型", []⟩,
            retry_count := s.retry_count + 1 }, calls, tick)

theorem isSet_false_lt {k tick : Nat} (h : isSet (some k) tick = false) :
    tick < k := by
  have h2 : ¬ k ≤ tick :=
    of_decide_eq_false (show decide (k ≤ tick) = false from h)
  omega

theorem runEvents_cons (c : Option Nat) (ev : SEvent) (rest : List SEvent)
    (draft : Str) (tick : Nat) :
    runEvents c (ev :: rest) draft tick =
      if isSet c tick then (LoopOut.cancelled, tick + 1)
      else
        match ev with
        | SEvent.thinking _ => runEvents c rest draft (tick + 1)
        | SEvent.content chunk => runEvents c rest (draft ++ chunk) (tick + 1)
        | SEvent.error m => (LoopOut.modelError m, tick + 1)
        | SEvent.done => (LoopOut.ok draft, tick + 1) := rfl

theorem runChapters_cons (c : Option Nat) (streams : Nat → List SEvent)
    (a : Str) (rest : List Str) (idx : Nat) (draft : Str) (tick : Nat)
    (calls : List Nat) :
    runChapters c streams (a :: rest) idx draft tick calls =
      if isSet c tick then (LoopOut.cancelled, tick + 1, calls)
      else
        match runEvents c (streams idx) draft (tick + 1) with
        | (LoopOut.ok draft2, tick2) =>
            runChapters c streams rest (idx + 1) (draft2 ++ "\n\n".data) tick2
              (calls ++ [tick + 1])
        | (LoopOut.cancelled, tick2) =>
            (LoopOut.cancelled, tick2, calls ++ [tick + 1])
        | (LoopOut.modelError m, tick2) =>
            (LoopOut.modelError m, tick2, calls ++ [tick + 1]) := rfl

/-- Event-loop bookkeeping: if more checks happened than `k` the loop was
cancelled, and if the loop was not cancelled every check performed so far
passed, so the check counter stays at most `k`. -/
theorem runEvents_prop (k : Nat) (evs : List SEvent) :
    ∀ (draft : Str) (tick : Nat), tick ≤ k →
      (k < (runEvents (some k) evs draft tick).2 →
        (runEvents (some k) evs draft tick).1 = LoopOut.cancelled) ∧
      ((runEvents (some k) evs draft tick).1 ≠ LoopOut.cancelled →
        (runEvents (some k) evs draft tick).2 ≤ k) := by
  induction evs with
  | nil =>
      intro draft tick h
      refine ⟨?_, ?_⟩
      · intro hk
        exact absurd (show k < tick from hk) (by omega)
      · intro _
        exact show tick ≤ k from h
  | cons ev rest ih =>
      intro draft tick h
      rw [runEvents_cons]
      by_cases hset : isSet (some k) tick = true
      · rw [if_pos hset]
        exact ⟨fun _ => rfl, fun hne => absurd rfl hne⟩
      · rw [if_neg hset]
        have hset' : isSet (some k) tick = false := by
          cases hh : isSet (some k) tick
          · rfl
          · exact absurd hh hset
        have hlt : tick < k := isSet_false_lt hset'
        cases ev with
        | thinking c => exact ih draft (tick + 1) (by omega)
        | content c => exact ih (draft ++ c) (tick + 1) (by omega)
        | error m =>
            refine ⟨?_, ?_⟩
            · intro hk
              exact absurd (show k < tick + 1 from hk) (by omega)
            · intro _
              exact show tick + 1 ≤ k from by omega
        | done =>
            refine ⟨?_, ?_⟩
            · intro hk
              exact absurd (show k < tick + 1 from hk) (by omega)
            · intro _
              exact show tick + 1 ≤ k from by omega

/-- Every recorded `stream_call` was issued after at most `k` passed
checks: no call is made after the point where the signal is observable. -/
theorem runChapters_calls_le (k : Nat) (streams : Nat → List SEvent)
    (l : List Str) :
    ∀ (idx : Nat) (draft : Str) (tick : Nat) (calls : List Nat),
      (∀ x ∈ calls, x ≤ k) →
      ∀ x ∈ (runChapters (some k) streams l idx draft tick calls).2.2, x ≤ k := by
  induction l with
  | nil =>
      intro idx draft tick calls h
      exact h
  | cons a rest ih =>
      intro idx draft tick calls h
      rw [runChapters_cons]
      by_cases hset : isSet (some k) tick = true
      · rw [if_pos hset]
        exact h
      · rw [if_neg hset]
        have hset' : isSet (some k) tick = false := by
          cases hh : isSet (some k) tick
          · rfl
          · exact absurd hh hset
        have hlt : tick < k := isSet_false_lt hset'
        have hext : ∀ x ∈ calls ++ [tick + 1], x ≤ k := by
          intro x hx
          rcases List.mem_append.mp hx with hx | hx
          · exact h x hx
          · have := List.mem_singleton.mp hx
            omega
        rcases hre : runEvents (some k) (streams idx) draft (tick + 1) with
          ⟨lo, tick2⟩
        cases lo with
        | ok draft2 => exact ih (idx + 1) _ tick2 (calls ++ [tick + 1]) hext
        | cancelled => exact hext
        | modelError m => exact hext

/-- Chapter-loop bookkeeping, as `runEvents_prop`. -/
theorem runChapters_cancelled_of_checks (k : Nat) (streams : Nat → List SEvent)
    (l : List Str) :
    ∀ (idx : Nat) (draft : Str) (tick : Nat) (calls : List Nat), tick ≤ k →
      (k < (runChapters (some k) streams l idx draft tick calls).2.1 →
        (runChapters (some k) streams l idx draft tick calls).1 =
          LoopOut.cancelled) ∧
      ((runChapters (some k) streams l idx draft tick calls).1 ≠
          LoopOut.cancelled →
        (runChapters (some k) streams l idx draft tick calls).2.1 ≤ k) := by
  induction l with
  | nil =>
      intro idx draft tick calls h
      refine ⟨?_, ?_⟩
      · intro hk
        exact absurd (show k < tick from hk) (by omega)
      · intro _
        exact show tick ≤ k from h
  | cons a rest ih =>
      intro idx draft tick calls h
      rw [runChapters_cons]
      by_cases hset : isSet (some k) tick = true
      · rw [if_pos hset]
        exact ⟨fun _ => rfl, fun hne => absurd rfl hne⟩
      · rw [if_neg hset]
        have hset' : isSet (some k) tick = false := by
          cases hh : isSet (some k) tick
          · rfl
          · exact absurd hh hset
        have hlt : tick < k := isSet_false_lt hset'
        have hev := runEvents_prop k (streams idx) draft (tick + 1) (by omega)
        rcases hre : runEvents (some k) (streams idx) draft (tick + 1) with
          ⟨lo, tick2⟩
        rw [hre] at hev
        cases lo with
        | ok draft2 =>
            have htick2 : tick2 ≤ k :=
              hev.2 (fun hx => LoopOut.noConfusion hx)
            exact ih (idx + 1) _ tick2 (calls ++ [tick + 1]) htick2
        | cancelled =>
            exact ⟨fun _ => rfl, fun hne => absurd rfl hne⟩
        | modelError m =>
            refine ⟨?_, ?_⟩
            · intro hk
              exact absurd (hev.1 (show k < tick2 from hk))
                (fun hx => LoopOut.noConfusion hx)
            · intro _
              exact hev.2 (fun hx => LoopOut.noConfusion hx)

/-- C8.  CONFIRMED.  With the cancellation signal becoming observable at
the `k`-th cooperative check: if the streaming writer performed more than
`k` checks then it returned via the `CancelledError` handler — status
`fail`, error kind `cancelled`, and (unlike the model-error path)
`retry_count` untouched; and every Model Gateway call was issued after at
most `k` passed checks, i.e. no call happens after the point where the
signal was observed. -/
theorem c8_cancellation (k : Nat) (streams : Nat → List SEvent) (s : WState) :
    ((writerRunStreamingT (some k) streams s).1.error.map
        (fun e => e.error_type) = some "cancelled" →
      (writerRunStreamingT (some k) streams s).1.node_status = "fail" ∧
      (writerRunStreamingT (some k) streams s).1.retry_count =
        s.retry_count) ∧
    (k < (writerRunStreamingT (some k) streams s).2.2 →
      (writerRunStreamingT (some k) streams s).1.error.map
        (fun e => e.error_type) = some "cancelled") ∧
    (∀ c ∈ (writerRunStreamingT (some k) streams s).2.1, c ≤ k) := by
  unfold writerRunStreamingT
  split
  · refine ⟨?_, ?_, ?_⟩
    · intro h
      simp at h
    · intro hk
      exact absurd (show k < 0 from hk) (by omega)
    · intro c hc
      exact absurd (show c ∈ ([] : List Nat) from hc) (List.not_mem_nil c)
  · dsimp only
    by_cases hch : (s.doc_variables.outline ≠ [] ∧
        s.doc_variables.write_mode ≠ some "full")
    · rw [if_pos hch]
      have hcall := runChapters_calls_le k streams
        (s.doc_variables.outline.filter (fun t => pyStrip t ≠ [])) 0 [] 0 []
        (fun x hx => absurd hx (List.not_mem_nil x))
      have hcanc := runChapters_cancelled_of_checks k streams
        (s.doc_variables.outline.filter (fun t => pyStrip t ≠ [])) 0 [] 0 []
        (by omega)
      rcases hrc : runChapters (some k) streams
          (s.doc_variables.outline.filter (fun t => pyStrip t ≠ [])) 0 [] 0 []
        with ⟨lo, tick, calls⟩
      rw [hrc] at hcall hcanc
      cases lo with
      | ok draft =>
          refine ⟨?_, ?_, hcall⟩
          · intro h
            simp at h
          · intro hk
            exact absurd (hcanc.1 (show k < tick from hk))
              (fun hx => LoopOut.noConfusion hx)
      | cancelled =>
          exact ⟨fun _ => ⟨rfl, rfl⟩, fun _ => rfl, hcall⟩
      | modelError m =>
          refine ⟨?_, ?_, hcall⟩
          · intro h
            simp at h
          · intro hk
            exact absurd (hcanc.1 (show k < tick from hk))
              (fun hx => LoopOut.noConfusion hx)
    · rw [if_neg hch]
      have hev := runEvents_prop k (streams 0) [] 0 (by omega)
      rcases hre : runEvents (some k) (streams 0) [] 0 with ⟨lo, tick⟩
      rw [hre] at hev
      have hcall : ∀ c ∈ [(0 : Nat)], c ≤ k := by
        intro c hc
        have := List.mem_singleton.mp hc
        omega
      cases lo with
      | ok draft =>
          refine ⟨?_, ?_, hcall⟩
          · intro h
            simp at h
          · intro hk
            exact absurd (hev.1 (show k < tick from hk))
              (fun hx => LoopOut.noConfusion hx)
      | cancelled =>
          exact ⟨fun _ => ⟨rfl, rfl⟩, fun _ => rfl, hcall⟩
      | modelError m =>
          refine ⟨?_, ?_, hcall⟩
          · intro h
            simp at h
          · intro hk
            exact absurd (hev.1 (show k < tick from hk))
              (fun hx => LoopOut.noConfusion hx)

/-- A writable state with a two-chapter outline, for the C8 witness. -/
def streamySt : WState :=
  { doc_variables := { doc_type := "t".data, outline := ["A".data, "B".data] } }

/-- A stream emitting one content chunk then done, for every chapter. -/
def demoStreams : Nat → List SEvent :=
  fun _ => [SEvent.content "x".data, SEvent.done]

theorem c8_cancellation_witness :
    (0 < (writerRunStreamingT (some 0) demoStreams streamySt).2.2 ∧
     (writerRunStreamingT (some 0) demoStreams streamySt).1.error.map
       (fun e => e.error_type) = some "cancelled") ∧
    ((writerRunStreamingT (some 0) demoStreams streamySt).1.node_status =
        "fail" ∧
     (writerRunStreamingT (some 0) demoStreams streamySt).1.retry_count =
        streamySt.retry_count) ∧
    (∀ c ∈ (writerRunStreamingT (some 0) demoStreams streamySt).2.1,
      c ≤ 0) := by
  obtain ⟨h1, h2, h3⟩ := c8_cancellation 0 demoStreams streamySt
  exact ⟨⟨by decide, h2 (by decide)⟩, h1 (h2 (by decide)), h3⟩

/-- C9.  CONFIRMED.  On a state whose doc variables have no `doc_type`,
no `outline` and no `plan_md`, both `writer.run` and
`writer.run_streaming` return immediately on the validation branch:
status `fail`, error kind `validation_failed`, no audit record, no
retry-count change, zero Model Gateway calls (the call counter is `0`,
resp. the call list is empty with `0` checks performed), whatever the
model call would have produced. -/
theorem c9_writer_validation (s : WState) (call : Except String WriterResult)
    (cancelFrom : Option Nat) (streams : Nat → List SEvent)
    (hdt : s.doc_variables.doc_type = [])
    (hol : s.doc_variables.outline = [])
    (hpm : s.doc_variables.plan_md = []) :
    writerRunT call s =
      ({ s with
          current_node := "writer",
          node_status := "fail",
          error := some ⟨"validation_failed",
            "文档信息不足，请先通过中控澄清需求（缺少 doc_type/outline/plan_md）",
            "返回中控节点补充文档类型和大纲", []⟩ }, 0) ∧
    writerRunStreamingT cancelFrom streams s =
      ({ s with
          current_node := "writer",
          node_status := "fail",
          error := some ⟨"validation_failed",
            "文档信息不足，无法开始撰写（缺少 doc_type/outline/plan_md）",
            "返回中控节点补充撰写指南/大纲", []⟩ }, [], 0) := by
  have hval : s.doc_variables.doc_type = [] ∧ s.doc_variables.outline = [] ∧
      s.doc_variables.plan_md = [] := ⟨hdt, hol, hpm⟩
  constructor
  · unfold writerRunT
    rw [if_pos hval]
  · unfold writerRunStreamingT
    rw [if_pos hval]

theorem c9_writer_validation_witness :
    writerRunT (Except.error "e") ({} : WState) =
      ({ ({} : WState) with
          current_node := "writer",
          node_status := "fail",
          error := some ⟨"validation_failed",
            "文档信息不足，请先通过中控澄清需求（缺少 doc_type/outline/plan_md）",
            "返回中控节点补充文档类型和大纲", []⟩ }, 0) ∧
    writerRunStreamingT none (fun _ => []) ({} : WState) =
      ({ ({} : WState) with
          current_node := "writer",
          node_status := "fail",
          error := some ⟨"validation_failed",
            "文档信息不足，无法开始撰写（缺少 doc_type/outline/plan_md）",
            "返回中控节点补充撰写指南/大纲", []⟩ }, [], 0) :=
  c9_writer_validation ({} : WState) (Except.error "e") none (fun _ => [])
    rfl rfl rfl

end Xuanshu

